import Mathlib

/-!
Shallow embedding of the transaction-categorization core of the
`classificadespesas` repository (src/utils/text_utils.py,
src/categorizers/*.py, src/extractors/generic_extractor.py).

Modelling conventions
* pandas DataFrames of transactions are represented positionally as
  `List Row`; every in-repo caller hands the categorizers a DataFrame with
  the default RangeIndex (`pd.DataFrame(rows)` or `pd.concat(...,
  ignore_index=True)`), under which pandas label-based `.loc` access used in
  the loops coincides with positional access.  A DataFrame that lacks the
  `category` / `categorized_by` column is represented by rows whose
  corresponding field is `""`, which is exactly the state produced by the
  code paths that add the missing column filled with `''`.
* Python `float` results of `_normalize_amount` are modelled as exact
  rationals (the claims under study concern the parsing logic, not binary
  rounding), and fuzzy-match scores (rapidfuzz floats) likewise; both use
  the executable reduced-fraction type `Q` below.
* The external AI text-generation call (Google Gemini) is a parameter
  `gen : String → Option String`; `none` models a transport error or an
  empty response for that row.
-/

/-- Python regex class `\s` (as used by `re.sub(r'\s+', ' ', text)` and
`str.split()` in `text_utils.normalize_text`): space, tab, newline,
carriage return, vertical tab, form feed. -/
def isPySpace (c : Char) : Bool :=
  c = ' ' || c = '\t' || c = '\n' || c = '\r' || c = '\x0b' || c = '\x0c'

/-- Helper of `pyTokens`: accumulates the current run of non-whitespace
characters (reversed) while scanning. -/
def pyTokensAux : List Char → List Char → List (List Char)
  | [], acc => if acc.isEmpty then [] else [acc.reverse]
  | c :: cs, acc =>
    if isPySpace c then
      (if acc.isEmpty then pyTokensAux cs [] else acc.reverse :: pyTokensAux cs [])
    else pyTokensAux cs (c :: acc)

/-- Python `str.split()` with no argument: maximal runs of non-whitespace
characters, with leading/trailing/repeated whitespace ignored. -/
def pyTokens (cs : List Char) : List (List Char) :=
  pyTokensAux cs []

/-- Python `str.strip()`: remove leading and trailing whitespace. -/
def pyStrip (s : String) : String :=
  String.mk (((s.toList.dropWhile isPySpace).reverse.dropWhile isPySpace).reverse)

/-- Python `str.lower()` restricted to ASCII letters plus the Latin-1
accented letters that occur in Brazilian bank statements; every other
character is left unchanged (modelled from the behaviour of `str.lower` on
this character range). -/
def pyLower (c : Char) : Char :=
  match c with
  | 'Á' => 'á' | 'À' => 'à' | 'Â' => 'â' | 'Ã' => 'ã' | 'Ä' => 'ä'
  | 'É' => 'é' | 'È' => 'è' | 'Ê' => 'ê' | 'Ë' => 'ë'
  | 'Í' => 'í' | 'Ì' => 'ì' | 'Î' => 'î' | 'Ï' => 'ï'
  | 'Ó' => 'ó' | 'Ò' => 'ò' | 'Ô' => 'ô' | 'Õ' => 'õ' | 'Ö' => 'ö'
  | 'Ú' => 'ú' | 'Ù' => 'ù' | 'Û' => 'û' | 'Ü' => 'ü'
  | 'Ç' => 'ç' | 'Ñ' => 'ñ'
  | _ => if 'A' ≤ c && c ≤ 'Z' then Char.ofNat (c.toNat + 32) else c

/-- Modelled from the external `unidecode` library on the Latin-1 letters
reachable in this application (accent stripping of lowercase Portuguese
letters); all other characters are transliterated to themselves. -/
def unidecodeChar (c : Char) : Char :=
  match c with
  | 'á' | 'à' | 'â' | 'ã' | 'ä' => 'a'
  | 'é' | 'è' | 'ê' | 'ë' => 'e'
  | 'í' | 'ì' | 'î' | 'ï' => 'i'
  | 'ó' | 'ò' | 'ô' | 'õ' | 'ö' => 'o'
  | 'ú' | 'ù' | 'û' | 'ü' => 'u'
  | 'ç' => 'c' | 'ñ' => 'n'
  | _ => c

/-- `text_utils.normalize_text`: collapse interior whitespace runs to one
space and trim (`re.sub(r'\s+', ' ', text).strip()`, equivalently
`' '.join(text.split())`), lower-case, strip diacritics. -/
def normalize_text (s : String) : String :=
  String.mk ((List.intercalate [' '] (pyTokens s.toList)).map
    (fun c => unidecodeChar (pyLower c)))

/-- Whether `pat` starts `hay` (character-list version of string-prefix
testing, used by the substring test below). -/
def leadsWith : List Char → List Char → Bool
  | [], _ => true
  | _ :: _, [] => false
  | a :: as, b :: bs => a = b && leadsWith as bs

/-- Whether `pat` occurs contiguously inside `hay`: Python `pat in hay` on
strings. -/
def containsSub (pat : List Char) : List Char → Bool
  | [] => pat.isEmpty
  | c :: tl => leadsWith pat (c :: tl) || containsSub pat tl

/-- Python `pattern in desc` for strings. -/
def strContains (hay pat : String) : Bool :=
  containsSub pat.toList hay.toList

/-- Python `dict` insertion `d[k] = v`: if the key exists its value is
replaced in place (the key keeps its original position), otherwise the pair
is appended.  Association lists built with this operation have distinct
keys and preserve insertion order, like CPython dicts. -/
def dictInsert (d : List (String × String)) (k v : String) :
    List (String × String) :=
  if d.any (fun p => p.1 = k) then
    d.map (fun p => if p.1 = k then (k, v) else p)
  else d ++ [(k, v)]

/-- Exact rational numbers in lowest terms, used to model the Python
`float` values produced by amount parsing and fuzzy scoring (the modelled
computations stay well inside the range where `float` is exact on the
comparisons the code performs). -/
structure Q where
  num : Int
  den : Nat
deriving DecidableEq, Repr

/-- Builds a `Q` in lowest terms from a numerator and a positive
denominator. -/
def mkQ (n : Int) (d : Nat) : Q :=
  let g := Nat.gcd n.natAbs d
  if g = 0 then ⟨0, 1⟩ else ⟨n / (g : Int), d / g⟩

/-- The rational `a/b` compared against the integer `t`: `t ≤ a/b`. -/
def Q.intLe (t : Int) (s : Q) : Bool :=
  t * (s.den : Int) ≤ s.num

/-- Strict comparison of two rationals with positive denominators. -/
def Q.lt (a b : Q) : Bool :=
  a.num * (b.den : Int) < b.num * (a.den : Int)

/-- The integer `n` as a `Q`. -/
def Q.ofInt (n : Int) : Q := ⟨n, 1⟩

/-- A transaction row as seen by the categorizers: `description`,
`category` (`""` = uncategorized), `categorized_by` (`""` = none),
`match_score` (set only by the fuzzy categorizer). -/
structure Row where
  description : String
  category : String
  categorized_by : String
  match_score : Option Q
deriving DecidableEq, Repr

/-- First character of a string (for Python `str.startswith` with a
one-character argument). -/
def startsWithChar (s : String) (c : Char) : Bool :=
  match s.toList with
  | [] => false
  | a :: _ => a = c

/-- Last character of a string (for Python `str.endswith` with a
one-character argument). -/
def endsWithChar (s : String) (c : Char) : Bool :=
  match s.toList.reverse with
  | [] => false
  | a :: _ => a = c

/-- Python `str.strip('*')`: remove leading and trailing runs of `*`. -/
def starStrip (s : String) : String :=
  String.mk (((s.toList.dropWhile (fun c => c = '*')).reverse.dropWhile
    (fun c => c = '*')).reverse)

/-- The two pattern dictionaries of `RuleBasedCategorizer`. -/
structure RulePatterns where
  exact : List (String × String)
  substr : List (String × String)
deriving Repr

/-- `RuleBasedCategorizer._prepare_patterns`: walk the category table in
row order; a normalized pattern wrapped in `*...*` goes (with the stars
stripped) into the substring dictionary, anything else into the exact-match
dictionary. -/
def preparePatterns (cats : List (String × String)) : RulePatterns :=
  cats.foldl
    (fun st pc =>
      let category := pyStrip pc.2
      let np := normalize_text (pyStrip pc.1)
      if startsWithChar np '*' && endsWithChar np '*' then
        { st with substr := dictInsert st.substr (starStrip np) category }
      else
        { st with exact := dictInsert st.exact np category })
    ⟨[], []⟩

/-- The substring-matching loop of `RuleBasedCategorizer.categorize`
(lines 102-105): iterate the substring dictionary in insertion order and
stop at the first pattern contained in the description; `none` = no match,
no write. -/
def firstSubstr : List (String × String) → String → Option String
  | [], _ => none
  | pc :: rest, d => if strContains d pc.1 then some pc.2 else firstSubstr rest d

/-- Per-row body of the main loop of `RuleBasedCategorizer.categorize`:
skip rows that already have a category, else try the exact dictionary on
the normalized description, else the substring dictionary. -/
def ruleRow (pats : RulePatterns) (r : Row) : Row :=
  if r.category ≠ "" then r
  else
    let d := normalize_text r.description
    match pats.exact.lookup d with
    | some c => { r with category := c }
    | none =>
      match firstSubstr pats.substr d with
      | some c => { r with category := c }
      | none => r

/-- `RuleBasedCategorizer.categorize`.  `cats` is the categorizer's
`categories_data` (`none` = attribute is `None`); with no or an empty
table the copy comes back with the whole `category` column set to `''`.
The pattern dictionaries are recomputed from `categories_data`, which is
what `_prepare_patterns` guarantees whenever categories are loaded or
added through the class interface. -/
def RuleBasedCategorizer.categorize (cats : Option (List (String × String)))
    (rows : List Row) : List Row :=
  match cats with
  | none => rows.map (fun r => { r with category := "" })
  | some cs =>
    if cs.isEmpty then rows.map (fun r => { r with category := "" })
    else rows.map (ruleRow (preparePatterns cs))

/-- Lexicographic code-point comparison of character lists: Python `<` on
strings, as used by `sorted` inside rapidfuzz's token-sort processor. -/
def charsLt : List Char → List Char → Bool
  | [], [] => false
  | [], _ :: _ => true
  | _ :: _, [] => false
  | a :: as, b :: bs => if a < b then true else if b < a then false else charsLt as bs

/-- Ordered insertion for the token sort (duplicates are identical strings,
so stability is irrelevant). -/
def insertToken (x : String) : List String → List String
  | [] => [x]
  | y :: ys => if charsLt x.toList y.toList then x :: y :: ys else y :: insertToken x ys

/-- Ascending insertion sort of token strings, modelling Python
`sorted(s.split())`. -/
def sortTokens (ts : List String) : List String :=
  ts.foldr insertToken []

/-- The token-sort preprocessing of `fuzz.token_sort_ratio`: split on
whitespace, sort the tokens, re-join with single spaces. -/
def tokenSorted (s : String) : String :=
  String.intercalate (" ") (sortTokens ((pyTokens s.toList).map String.mk))

/-- Fuelled recursion for `lcsLen`; the fuel is an upper bound on the
number of steps (each step shortens the combined length by at least one),
so with fuel `|a| + |b|` it computes the true LCS length while remaining
structurally recursive. -/
def lcsAux : Nat → List Char → List Char → Nat
  | 0, _, _ => 0
  | _ + 1, [], _ => 0
  | _ + 1, _ :: _, [] => 0
  | n + 1, a :: as, b :: bs =>
    if a = b then lcsAux n as bs + 1
    else max (lcsAux n (a :: as) bs) (lcsAux n as (b :: bs))

/-- Length of a longest common subsequence, the combinatorial core of the
InDel (insert/delete) edit distance that rapidfuzz's `fuzz.ratio`
normalizes. -/
def lcsLen (a b : List Char) : Nat :=
  lcsAux (a.length + b.length) a b

/-- Modelled from the external rapidfuzz library: `fuzz.ratio`, the
normalized InDel similarity `100 * (1 - dist/(|a|+|b|))
= 200 * lcs/(|a|+|b|)`, with two empty strings scoring 100. -/
def indelSim (a b : List Char) : Q :=
  if a.length + b.length = 0 then Q.ofInt 100
  else mkQ (200 * (lcsLen a b : Int)) (a.length + b.length)

/-- Modelled from the external rapidfuzz library: `fuzz.token_sort_ratio`,
the word-order-insensitive similarity used by
`FuzzyCategorizer._find_best_match`. -/
def token_sort_score (a b : String) : Q :=
  indelSim (tokenSorted a).toList (tokenSorted b).toList

/-- Highest-scoring choice with ties resolved to the earliest candidate,
as `rapidfuzz.process.extractOne` resolves them. -/
def bestOf (score : String → Q) (ps : List String) : Option (String × Q) :=
  ps.foldl
    (fun acc p =>
      match acc with
      | none => some (p, score p)
      | some qs => if Q.lt qs.2 (score p) then some (p, score p) else acc)
    none

/-- Modelled from the external rapidfuzz library:
`process.extractOne(query, choices, scorer, score_cutoff)` returns the
best-scoring choice provided its score reaches the (integer) cutoff, else
`None` (filtering below-cutoff candidates first selects the same
first-best element). -/
def extractOne (score : String → Q) (ps : List String) (cutoff : Int) :
    Option (String × Q) :=
  match bestOf score ps with
  | none => none
  | some ms => if Q.intLe cutoff ms.2 then some ms else none

/-- `FuzzyCategorizer._find_best_match`: empty pattern list yields
`(None, 0)`, otherwise `extractOne` with the threshold as cutoff, with a
failed cutoff also yielding `(None, 0)`. -/
def find_best_match (threshold : Int) (description : String)
    (patterns : List String) : Option String × Q :=
  if patterns.isEmpty then (none, Q.ofInt 0)
  else
    match extractOne (fun p => token_sort_score description p) patterns threshold with
    | some ms => (some ms.1, ms.2)
    | none => (none, Q.ofInt 0)

/-- `FuzzyCategorizer._prepare_patterns`: normalized stripped pattern ↦
stripped category, insertion order, last write wins on duplicates. -/
def fuzzyPatterns (cats : List (String × String)) : List (String × String) :=
  cats.foldl (fun d pc => dictInsert d (normalize_text (pyStrip pc.1)) (pyStrip pc.2)) []

/-- Configuration of `FuzzyCategorizer`: its `categories_data` and its
acceptance `threshold` (a Python `int` in every code path that sets it). -/
structure FuzzyState where
  categories : Option (List (String × String))
  threshold : Int

/-- Per-row body of the loop of `FuzzyCategorizer.categorize`: skip rows
with a category; otherwise accept the best match only when it is truthy
(non-empty string) and its score reaches the threshold, recording the
score on the row. -/
def fuzzyRow (dict : List (String × String)) (threshold : Int) (r : Row) : Row :=
  if r.category ≠ "" then r
  else
    let d := normalize_text r.description
    match find_best_match threshold d (dict.map Prod.fst) with
    | (some m, score) =>
      if m ≠ "" && Q.intLe threshold score then
        { r with category := (dict.lookup m).getD "", match_score := some score }
      else r
    | (none, _) => r

/-- `FuzzyCategorizer.categorize`: with no or an empty category table the
copy comes back with the whole `category` column set to `''`; otherwise
each uncategorized row is fuzzy-matched against the pattern dictionary. -/
def FuzzyCategorizer.categorize (st : FuzzyState) (rows : List Row) : List Row :=
  match st.categories with
  | none => rows.map (fun r => { r with category := "" })
  | some cs =>
    if cs.isEmpty then rows.map (fun r => { r with category := "" })
    else rows.map (fuzzyRow (fuzzyPatterns cs) st.threshold)

/-- `FuzzyCategorizer.set_threshold`: values outside `[0, 100]` raise
`ValueError` (`none`) and leave the threshold unchanged; in-range values
replace it. -/
def FuzzyCategorizer.set_threshold (st : FuzzyState) (t : Int) : Option FuzzyState :=
  if t < 0 || t > 100 then none else some { st with threshold := t }

/-- Python `str.lower()` on a whole string (same character table as
`pyLower`). -/
def pyLowerStr (s : String) : String :=
  String.mk (s.toList.map pyLower)

/-- Helper of `uniqFirst` carrying the set of values already seen. -/
def uniqFirstAux (seen : List String) : List String → List String
  | [] => []
  | x :: xs =>
    if seen.contains x then uniqFirstAux seen xs
    else x :: uniqFirstAux (x :: seen) xs

/-- `pandas.Series.unique`: the distinct values in order of first
appearance. -/
def uniqFirst (l : List String) : List String :=
  uniqFirstAux [] l

/-- `BaseCategorizer.get_categories`: distinct raw values of the
`category` column, empty for a missing or empty table. -/
def getCategoriesList (cats : Option (List (String × String))) : List String :=
  match cats with
  | none => []
  | some cs => if cs.isEmpty then [] else uniqFirst (cs.map Prod.snd)

/-- `AICategorizer._prepare_examples`: for each distinct category in first
appearance order, the first up to 3 raw `(pattern, category)` rows of that
category. -/
def aiExamples (cats : Option (List (String × String))) : List (String × String) :=
  match cats with
  | none => []
  | some cs =>
    if cs.isEmpty then []
    else
      (uniqFirst (cs.map Prod.snd)).flatMap
        (fun cat => ((cs.filter (fun pc => pc.2 = cat)).take 3).map
          (fun pc => (pc.1, cat)))

/-- `AICategorizer._build_prompt`: few-shot examples, the target
description, the list of legal category names and the final instruction. -/
def build_prompt (examples : List (String × String)) (description : String)
    (available : List String) : String :=
  "Categorize a seguinte transação financeira em uma das categorias disponíveis.\n\n"
    ++ (if examples.isEmpty then ""
        else "Exemplos:\n"
          ++ String.join (examples.map
              (fun e => "\"" ++ e.1 ++ "\" → " ++ e.2 ++ "\n"))
          ++ "\n")
    ++ "Agora, classifique só a categoria desta transação:\n\"" ++ description
    ++ "\"\n\n"
    ++ "Categorias disponíveis:\n"
    ++ String.join (available.map (fun c => "- " ++ c ++ "\n"))
    ++ "\nResponda apenas com o nome da categoria, sem explicações adicionais."

/-- `AICategorizer._extract_category_from_response`: exact case-insensitive
match against the legal categories first, then substring containment of a
category name in the cleaned response. -/
def extract_category_from_response (response : String) (available : List String) :
    Option String :=
  let clean := pyLowerStr (pyStrip response)
  match available.find? (fun c => pyLowerStr c = clean) with
  | some c => some c
  | none => available.find? (fun c => strContains clean (pyLowerStr c))

/-- `AICategorizer._categorize_with_ai`: empty description or no known
categories yield `None`; otherwise the external model (`gen`) is called on
the built prompt, `None`/empty responses and transport errors yield `None`
for this row, and otherwise the category is parsed out of the response. -/
def categorize_with_ai (gen : String → Option String)
    (examples : List (String × String)) (description : String)
    (available : List String) : Option String :=
  if description = "" || available.isEmpty then none
  else
    match gen (build_prompt examples description available) with
    | none => none
    | some resp =>
      if resp = "" then none
      else extract_category_from_response resp available

/-- Per-row body of the loop of `AICategorizer.categorize`: skip rows with
a category; a parsed AI answer sets `category` and stamps
`categorized_by = 'ai'`. -/
def aiRow (gen : String → Option String) (examples : List (String × String))
    (available : List String) (r : Row) : Row :=
  if r.category ≠ "" then r
  else
    match categorize_with_ai gen examples r.description available with
    | some c => { r with category := c, categorized_by := "ai" }
    | none => r

/-- `AICategorizer.categorize` with a configured API key; with no key the
source returns the input unchanged, which coincides with taking
`gen = fun _ => none`. -/
def AICategorizer.categorize (gen : String → Option String)
    (cats : Option (List (String × String))) (rows : List Row) : List Row :=
  rows.map (aiRow gen (aiExamples cats) (getCategoriesList cats))

/-- The `ChainCategorizer.stats` dictionary. -/
structure Stats where
  total : Nat
  rule_based : Nat
  fuzzy : Nat
  ai : Nat
  uncategorized : Nat
deriving DecidableEq, Repr

/-- Configuration of `ChainCategorizer`: the shared `categories_data`, the
fuzzy threshold, the `enable_ai` flag (with its `ai_categorizer`), and the
external generation function of the AI categorizer. -/
structure ChainState where
  categories : Option (List (String × String))
  threshold : Int
  aiEnabled : Bool
  gen : String → Option String

/-- The chain's label-aligned write-back
`result.loc[stage_result.index[assigned], ...] = ...` for a stage that ran
on the uncategorized subset: walk the full frame in order; rows with an
empty category consume the next stage-result row and take its `category`
(stamped with `tag`) when the stage assigned one.  Under the RangeIndex
convention the subset's labels are exactly the positions of the
empty-category rows in order, so label alignment is alignment of these two
traversals. -/
def mergeStage (tag : String) : List Row → List Row → List Row
  | [], _ => []
  | r :: rs, fs =>
    if r.category = "" then
      match fs with
      | [] => r :: mergeStage tag rs []
      | f :: ftl =>
        (if f.category ≠ "" then { r with category := f.category, categorized_by := tag }
         else r) :: mergeStage tag rs ftl
    else r :: mergeStage tag rs fs

/-- The mask `(result['category'] != '') & (result['categorized_by'] == '')`
counted into `stats['rule_based']` and stamped `rule_based`. -/
def ruleMask (r : Row) : Bool :=
  r.category ≠ "" && r.categorized_by = ""

/-- Stage 1 of `ChainCategorizer.categorize`: run the rule categorizer on
the full frame, then stamp `categorized_by = 'rule_based'` on the mask. -/
def chainStage1 (st : ChainState) (txs : List Row) : List Row :=
  (RuleBasedCategorizer.categorize st.categories txs).map
    (fun r => if ruleMask r then { r with categorized_by := "rule_based" } else r)

/-- Stage 2 of `ChainCategorizer.categorize`: run the fuzzy categorizer on
the uncategorized subset and write the assigned rows back; also returns
`stats['fuzzy']`.  (When the subset is empty the source skips the stage,
which produces the same frame and count.) -/
def chainStage2 (st : ChainState) (rows : List Row) : List Row × Nat :=
  let uncat := rows.filter (fun r => r.category = "")
  let fuzzyRes := FuzzyCategorizer.categorize ⟨st.categories, st.threshold⟩ uncat
  (mergeStage ("fuzzy") rows fuzzyRes, fuzzyRes.countP (fun r => r.category ≠ ""))

/-- Stage 3 of `ChainCategorizer.categorize`: only when AI is enabled, run
the AI categorizer on the remaining uncategorized subset and write the
assigned rows back; also returns `stats['ai']`. -/
def chainStage3 (st : ChainState) (rows : List Row) : List Row × Nat :=
  if st.aiEnabled then
    let uncat := rows.filter (fun r => r.category = "")
    let aiRes := AICategorizer.categorize st.gen st.categories uncat
    (mergeStage ("ai") rows aiRes, aiRes.countP (fun r => r.category ≠ ""))
  else (rows, 0)

/-- `ChainCategorizer.categorize`: stats are reset at entry (the returned
`Stats` value is computed afresh from this run only), `total` is the input
row count, and the three stages run in sequence, each on the residual
uncategorized subset. -/
def ChainCategorizer.categorize (st : ChainState) (txs : List Row) :
    List Row × Stats :=
  let ruleCnt := (RuleBasedCategorizer.categorize st.categories txs).countP ruleMask
  let r2 := chainStage1 st txs
  let s2 := chainStage2 st r2
  let s3 := chainStage3 st s2.1
  (s3.1,
   { total := txs.length
     rule_based := ruleCnt
     fuzzy := s2.2
     ai := s3.2
     uncategorized := s3.1.countP (fun r => r.category = "") })

/-- Pairs each list element with its position starting at `n` (the
`enumerate` of the header-scanning loop). -/
def withIdxFrom (n : Nat) : List α → List (Nat × α)
  | [] => []
  | a :: as => (n, a) :: withIdxFrom (n + 1) as

/-- `enumerate(xs)`. -/
def withIdx (l : List α) : List (Nat × α) :=
  withIdxFrom 0 l

/-- Keyword table for the date column of
`GenericExtractor._identify_columns`. -/
def dateKeywords : List String := ["data", "dt", "date", "dia"]

/-- Keyword table for the description column. -/
def descKeywords : List String :=
  ["descricao", "historico", "lancamento", "description", "transacao"]

/-- Keyword table for the amount column. -/
def amountKeywords : List String :=
  ["valor", "montante", "amount", "r$", "debito", "credito"]

/-- Whether a normalized header cell contains one of the keywords. -/
def hasKw (ks : List String) (h : String) : Bool :=
  ks.any (fun k => strContains h k)

/-- The partial column-role map (`col_indices` dictionary). -/
structure ColIndices where
  date : Option Nat
  description : Option Nat
  amount : Option Nat
deriving DecidableEq, Repr

/-- One iteration of the header loop of
`GenericExtractor._identify_columns`: the `elif` chain gives a column at
most one role, and assigning `col_indices[role] = idx` overwrites any
earlier column that had matched the same role. -/
def roleStep (acc : ColIndices) (p : Nat × String) : ColIndices :=
  if hasKw dateKeywords p.2 then { acc with date := some p.1 }
  else if hasKw descKeywords p.2 then { acc with description := some p.1 }
  else if hasKw amountKeywords p.2 then { acc with amount := some p.1 }
  else acc

/-- Normalization of one header cell: falsy cells (`None` or the empty
string) become `""`, anything else is `normalize_text(str(cell))`. -/
def normHeaderCell (c : Option String) : String :=
  match c with
  | none => ""
  | some s => if s = "" then "" else normalize_text s

/-- `GenericExtractor._identify_columns`: empty or all-`None` header rows
yield the empty map, otherwise the keyword scan above. -/
def identify_columns (header : List (Option String)) : ColIndices :=
  if header.isEmpty || header.all (fun c => c = none) then ⟨none, none, none⟩
  else (withIdx (header.map normHeaderCell)).foldl roleStep ⟨none, none, none⟩

/-- A calendar date as produced by `datetime.strptime`. -/
structure PyDate where
  year : Nat
  month : Nat
  day : Nat
deriving DecidableEq, Repr

/-- Gregorian leap-year rule used by `datetime`'s calendar validation. -/
def isLeap (y : Nat) : Bool :=
  (y % 4 = 0 && y % 100 ≠ 0) || y % 400 = 0

/-- Number of days of month `m` of year `y` (`datetime` validity). -/
def daysInMonth (y m : Nat) : Nat :=
  if m = 2 then (if isLeap y then 29 else 28)
  else if m = 4 || m = 6 || m = 9 || m = 11 then 30
  else 31

/-- One `strptime` format from the fixed list in
`GenericExtractor._normalize_date`: a separator, whether the year comes
first, and whether the year directive is `%y` (two digits) rather than
`%Y` (four digits). -/
structure DateFmt where
  sep : Char
  yearFirst : Bool
  twoDigitYear : Bool
deriving DecidableEq, Repr

/-- The format list of `_normalize_date`, in source order:
`%d/%m/%Y, %d/%m/%y, %d.%m.%Y, %d.%m.%y, %d-%m-%Y, %d-%m-%y, %Y/%m/%d,
%Y-%m-%d`. -/
def dateFormats : List DateFmt :=
  [⟨'/', false, false⟩, ⟨'/', false, true⟩,
   ⟨'.', false, false⟩, ⟨'.', false, true⟩,
   ⟨'-', false, false⟩, ⟨'-', false, true⟩,
   ⟨'/', true, false⟩, ⟨'-', true, false⟩]

/-- Helper of `splitOnChar` carrying the reversed current field. -/
def splitOnCharAux (sep : Char) : List Char → List Char → List (List Char)
  | [], acc => [acc.reverse]
  | c :: cs, acc =>
    if c = sep then acc.reverse :: splitOnCharAux sep cs []
    else splitOnCharAux sep cs (c :: acc)

/-- Split on a separator character, keeping empty fields (Python
`s.split(sep)`). -/
def splitOnChar (sep : Char) (cs : List Char) : List (List Char) :=
  splitOnCharAux sep cs []

/-- Value of a digit run (most significant first). -/
def digitsToNat (cs : List Char) : Nat :=
  cs.foldl (fun a c => 10 * a + (c.toNat - '0'.toNat)) 0

/-- `strptime`'s `%d` / `%m` field: one or two digits whose value lies in
`[1, hi]`. -/
def parseDayMonth (hi : Nat) (cs : List Char) : Option Nat :=
  if (cs.length = 1 || cs.length = 2) && cs.all Char.isDigit then
    if 1 ≤ digitsToNat cs && digitsToNat cs ≤ hi then some (digitsToNat cs) else none
  else none

/-- `strptime`'s `%Y` field: exactly four digits; `datetime` additionally
rejects year 0 (`MINYEAR = 1`). -/
def parseYear4 (cs : List Char) : Option Nat :=
  if cs.length = 4 && cs.all Char.isDigit then
    if 1 ≤ digitsToNat cs then some (digitsToNat cs) else none
  else none

/-- `strptime`'s `%y` field: exactly two digits, mapped to 2000-2068 /
1969-1999 as CPython does. -/
def parseYear2 (cs : List Char) : Option Nat :=
  if cs.length = 2 && cs.all Char.isDigit then
    some (if digitsToNat cs ≤ 68 then 2000 + digitsToNat cs else 1900 + digitsToNat cs)
  else none

/-- Field validation of `datetime.strptime` for the formats of
`_normalize_date`: the three separator-delimited fields must match the
year/month/day directives, and the resulting date must be calendar-valid,
else `ValueError` (`none`). -/
def strpFields (f : DateFmt) (a b c : List Char) : Option PyDate :=
  match (if f.twoDigitYear then parseYear2 (if f.yearFirst then a else c)
         else parseYear4 (if f.yearFirst then a else c)),
        parseDayMonth 12 b,
        parseDayMonth 31 (if f.yearFirst then c else a) with
  | some y, some m, some d =>
    if d ≤ daysInMonth y m then some ⟨y, m, d⟩ else none
  | _, _, _ => none

/-- `datetime.strptime(clean_str, fmt)`: the string must consist of
exactly three separator-delimited fields matching the directives.  (The
directive fields only ever match digits, so splitting at the separator is
equivalent to the compiled `_strptime` regular expression.) -/
def strpParse (f : DateFmt) (s : String) : Option PyDate :=
  match splitOnChar f.sep s.toList with
  | [a, b, c] => strpFields f a b c
  | _ => none

/-- Zero-padded decimal rendering used by `strftime`. -/
def padNum (w n : Nat) : String :=
  let s := toString n
  String.mk (List.replicate (w - s.length) '0') ++ s

/-- `date_obj.strftime('%Y-%m-%d')`. -/
def isoString (d : PyDate) : String :=
  padNum 4 d.year ++ "-" ++ padNum 2 d.month ++ "-" ++ padNum 2 d.day

/-- The character filter `re.sub(r'[^\d/.-]', '', date_str)`. -/
def cleanDate (s : String) : String :=
  String.mk (s.toList.filter (fun c => c.isDigit || c = '/' || c = '.' || c = '-'))

/-- The `for fmt in formats: try ... except ValueError: continue` loop:
first successful parse wins. -/
def tryFormats : List DateFmt → String → Option String
  | [], _ => none
  | f :: fs, s =>
    match strpParse f s with
    | some d => some (isoString d)
    | none => tryFormats fs s

/-- `GenericExtractor._normalize_date`: falsy input yields `None`, else
strip the irrelevant characters and try the fixed format list in order,
re-emitting ISO-8601. -/
def normalize_date (s : String) : Option String :=
  if s = "" then none
  else tryFormats dateFormats (cleanDate s)

/-- Character filter of `_normalize_amount`:
`re.sub(r'[^\d,.+-]', '', amount_str)`. -/
def keepAmountChar (c : Char) : Bool :=
  c.isDigit || c = ',' || c = '.' || c = '+' || c = '-'

/-- Python `float(s)` on the unsigned part: a digit run, optionally
followed by a dot and a further digit run, with at least one digit in
total; anything else raises `ValueError` (`none`).  (Exponents,
underscores, infinities cannot occur: every letter has been stripped.) -/
def pyFloatCore (cs : List Char) : Option Q :=
  let ip := cs.takeWhile Char.isDigit
  let rest := cs.dropWhile Char.isDigit
  match rest with
  | [] => if ip.isEmpty then none else some (Q.ofInt (digitsToNat ip))
  | '.' :: fp =>
    if fp.all Char.isDigit && (!ip.isEmpty || !fp.isEmpty) then
      some (mkQ (digitsToNat ip * 10 ^ fp.length + digitsToNat fp) (10 ^ fp.length))
    else none
  | _ => none

/-- Negation on `Q`. -/
def Q.neg (q : Q) : Q := ⟨-q.num, q.den⟩

/-- Python `float(s)`: an optional single leading sign, then the unsigned
grammar above. -/
def pyFloat (cs : List Char) : Option Q :=
  match cs with
  | '-' :: rest => (pyFloatCore rest).map Q.neg
  | '+' :: rest => pyFloatCore rest
  | _ => pyFloatCore cs

/-- `GenericExtractor._normalize_amount`: falsy input yields `None`; strip
everything but digits, signs and separators; a parenthesized original gets
a `-` prepended; dots (thousands separators) are removed and the comma
becomes the decimal point; failed `float` conversion yields `None`. -/
def normalize_amount (s : String) : Option Q :=
  if s = "" then none
  else
    let clean1 := s.toList.filter keepAmountChar
    let clean2 :=
      if s.toList.contains '(' && s.toList.contains ')' then '-' :: clean1
      else clean1
    let clean3 := (clean2.filter (fun c => c ≠ '.')).map
      (fun c => if c = ',' then '.' else c)
    pyFloat clean3

/-- A raw extracted transaction row (all three role cells as strings), as
assembled by `GenericExtractor._extract_transaction`. -/
structure RawTx where
  date : String
  description : String
  amount : String
deriving DecidableEq, Repr

/-- A normalized transaction of the final table. -/
structure Tx where
  date : String
  description : String
  amount : Q
deriving DecidableEq, Repr

/-- `GenericExtractor._normalize_dataframe`: normalize the three columns
and drop every row whose date or amount failed to normalize
(`dropna(subset=['date', 'amount'])`). -/
def normalize_dataframe (rows : List RawTx) : List Tx :=
  rows.filterMap
    (fun r =>
      match normalize_date r.date, normalize_amount r.amount with
      | some d, some a => some ⟨d, normalize_text r.description, a⟩
      | _, _ => none)

/-- The category table as read from the user file (`pd.read_csv` /
`pd.read_excel` output): column names and cell rows. -/
structure CatTable where
  cols : List String
  cells : List (List String)
deriving DecidableEq, Repr

/-- `required_columns = ['pattern', 'category']` of
`BaseCategorizer.load_categories`. -/
def requiredColumns : List String := ["pattern", "category"]

/-- The observable state of a `BaseCategorizer`: its `categories_data`
attribute (`none` = `None`). -/
structure BaseState where
  categories_data : Option CatTable
deriving DecidableEq, Repr

/-- `BaseCategorizer.load_categories` on a successfully read file `t`:
the attribute `self.categories_data` is assigned the newly read table
first, and only then are the required columns checked; a missing column
raises `ValueError` (modelled by the `some` error component) after the
assignment has already happened. -/
def load_categories (st : BaseState) (t : CatTable) : BaseState × Option String :=
  let st1 : BaseState := { st with categories_data := some t }
  let missing := requiredColumns.filter (fun c => !(t.cols.contains c))
  (st1,
   if missing.isEmpty then none
   else some ("Colunas obrigatórias ausentes no arquivo de categorias"))

/-- Values of a named column; a missing column is modelled as the empty
list (pandas would raise a `KeyError`; the theorems below only evaluate
this on tables that have the column). -/
def columnValues (t : CatTable) (name : String) : List String :=
  match (withIdx t.cols).find? (fun p => p.2 = name) with
  | some p => t.cells.map (fun row => row.getD p.1 (""))
  | none => []

/-- `BaseCategorizer.get_categories`: distinct values of the `category`
column in order of first appearance; a `None` or empty table yields the
empty list. -/
def get_categories (st : BaseState) : List String :=
  match st.categories_data with
  | none => []
  | some t =>
    if t.cols.isEmpty || t.cells.isEmpty then []
    else uniqFirst (columnValues t ("category"))

/-- A DataFrame value in the heap model. -/
abbrev Df := List Row

/-- The store of DataFrame objects; references are list positions, and
allocation appends.  This models Python object identity: `.copy()`
allocates a fresh reference, `.loc[...] = ...` writes through the
reference it is called on. -/
abbrev Heap := List Df

/-- Dereference. -/
def heapGet (σ : Heap) (r : Nat) : Df :=
  (σ[r]?).getD []

/-- In-place update of the object behind reference `r`. -/
def heapSet (σ : Heap) (r : Nat) (v : Df) : Heap :=
  σ.set r v

/-- Allocation of a fresh object (`.copy()` and frame construction). -/
def heapAlloc (σ : Heap) (v : Df) : Heap × Nat :=
  (σ ++ [v], σ.length)

/-- One iteration of the loop of `RuleBasedCategorizer.categorize` in the
heap model: reads the current frame behind `rref` and performs the single
`.loc` write of this iteration, if any. -/
def ruleLoopStep (rref : Nat) (pats : RulePatterns) (σ : Heap) (p : Nat × String) :
    Heap :=
  let cur := heapGet σ rref
  match cur[p.1]? with
  | none => σ
  | some row =>
    if row.category ≠ "" then σ
    else
      match pats.exact.lookup p.2 with
      | some c => heapSet σ rref (cur.set p.1 { row with category := c })
      | none =>
        match firstSubstr pats.substr p.2 with
        | some c => heapSet σ rref (cur.set p.1 { row with category := c })
        | none => σ

/-- `RuleBasedCategorizer.categorize` in the heap model: copy the input
frame, then write only through the copy's reference. -/
def ruleCategorizeH (cats : Option (List (String × String))) (σ : Heap)
    (tref : Nat) : Heap × Nat :=
  let txs := heapGet σ tref
  match cats with
  | none =>
    let al := heapAlloc σ txs
    (heapSet al.1 al.2 ((heapGet al.1 al.2).map (fun r => { r with category := "" })),
     al.2)
  | some cs =>
    if cs.isEmpty then
      let al := heapAlloc σ txs
      (heapSet al.1 al.2 ((heapGet al.1 al.2).map (fun r => { r with category := "" })),
       al.2)
    else
      let pats := preparePatterns cs
      let al := heapAlloc σ txs
      let descs := (heapGet al.1 al.2).map (fun r => normalize_text r.description)
      ((withIdx descs).foldl (ruleLoopStep al.2 pats) al.1, al.2)

/-- One iteration of the loop of `FuzzyCategorizer.categorize` in the heap
model: on acceptance it performs the two `.loc` writes (`category`, then
`match_score`) through the copy's reference. -/
def fuzzyLoopStep (rref : Nat) (dict : List (String × String)) (threshold : Int)
    (σ : Heap) (idx : Nat) : Heap :=
  let cur := heapGet σ rref
  match cur[idx]? with
  | none => σ
  | some row =>
    if row.category ≠ "" then σ
    else
      match find_best_match threshold (normalize_text row.description)
          (dict.map Prod.fst) with
      | (some m, score) =>
        if m ≠ "" && Q.intLe threshold score then
          let σ1 := heapSet σ rref (cur.set idx { row with category := (dict.lookup m).getD "" })
          let cur1 := heapGet σ1 rref
          match cur1[idx]? with
          | none => σ1
          | some row1 => heapSet σ1 rref (cur1.set idx { row1 with match_score := some score })
        else σ
      | (none, _) => σ

/-- `FuzzyCategorizer.categorize` in the heap model. -/
def fuzzyCategorizeH (st : FuzzyState) (σ : Heap) (tref : Nat) : Heap × Nat :=
  let txs := heapGet σ tref
  match st.categories with
  | none =>
    let al := heapAlloc σ txs
    (heapSet al.1 al.2 ((heapGet al.1 al.2).map (fun r => { r with category := "" })),
     al.2)
  | some cs =>
    if cs.isEmpty then
      let al := heapAlloc σ txs
      (heapSet al.1 al.2 ((heapGet al.1 al.2).map (fun r => { r with category := "" })),
       al.2)
    else
      let al := heapAlloc σ txs
      ((List.range txs.length).foldl
        (fuzzyLoopStep al.2 (fuzzyPatterns cs) st.threshold) al.1, al.2)

/-- One iteration of the loop of `AICategorizer.categorize` in the heap
model (two `.loc` writes on success). -/
def aiLoopStep (rref : Nat) (gen : String → Option String)
    (examples : List (String × String)) (available : List String)
    (σ : Heap) (idx : Nat) : Heap :=
  let cur := heapGet σ rref
  match cur[idx]? with
  | none => σ
  | some row =>
    if row.category ≠ "" then σ
    else
      match categorize_with_ai gen examples row.description available with
      | some c =>
        let σ1 := heapSet σ rref (cur.set idx { row with category := c })
        let cur1 := heapGet σ1 rref
        match cur1[idx]? with
        | none => σ1
        | some row1 => heapSet σ1 rref (cur1.set idx { row1 with categorized_by := "ai" })
      | none => σ

/-- `AICategorizer.categorize` (configured key) in the heap model. -/
def aiCategorizeH (gen : String → Option String)
    (cats : Option (List (String × String))) (σ : Heap) (tref : Nat) :
    Heap × Nat :=
  let txs := heapGet σ tref
  let al := heapAlloc σ txs
  ((List.range txs.length).foldl
    (aiLoopStep al.2 gen (aiExamples cats) (getCategoriesList cats)) al.1, al.2)

/-- `ChainCategorizer.categorize` in the heap model: copies the input,
hands the copy to the rule categorizer (which copies again), stamps and
merges through the result reference only. -/
def chainCategorizeH (st : ChainState) (σ : Heap) (tref : Nat) :
    Heap × Nat × Stats :=
  let txs := heapGet σ tref
  let al := heapAlloc σ txs
  let ruleOut := ruleCategorizeH st.categories al.1 al.2
  let r2 := ruleOut.2
  let ruleCnt := (heapGet ruleOut.1 r2).countP ruleMask
  let σ3 := heapSet ruleOut.1 r2
    ((heapGet ruleOut.1 r2).map
      (fun r => if ruleMask r then { r with categorized_by := "rule_based" } else r))
  let al2 := heapAlloc σ3 ((heapGet σ3 r2).filter (fun r => r.category = ""))
  let fz := fuzzyCategorizeH ⟨st.categories, st.threshold⟩ al2.1 al2.2
  let fuzzyCnt := (heapGet fz.1 fz.2).countP (fun r => r.category ≠ "")
  let σ4 := heapSet fz.1 r2
    (mergeStage ("fuzzy") (heapGet fz.1 r2) (heapGet fz.1 fz.2))
  if st.aiEnabled then
    let al3 := heapAlloc σ4 ((heapGet σ4 r2).filter (fun r => r.category = ""))
    let ai := aiCategorizeH st.gen st.categories al3.1 al3.2
    let aiCnt := (heapGet ai.1 ai.2).countP (fun r => r.category ≠ "")
    let σ5 := heapSet ai.1 r2
      (mergeStage ("ai") (heapGet ai.1 r2) (heapGet ai.1 ai.2))
    (σ5, r2,
     ⟨txs.length, ruleCnt, fuzzyCnt, aiCnt,
      (heapGet σ5 r2).countP (fun r => r.category = "")⟩)
  else
    (σ4, r2,
     ⟨txs.length, ruleCnt, fuzzyCnt, 0,
      (heapGet σ4 r2).countP (fun r => r.category = "")⟩)

/-- The per-row effect of `RuleBasedCategorizer.categorize` (used to state
rowwise facts about the list-level function). -/
def ruleStageRow (cats : Option (List (String × String))) (r : Row) : Row :=
  match cats with
  | none => { r with category := "" }
  | some cs =>
    if cs.isEmpty then { r with category := "" }
    else ruleRow (preparePatterns cs) r

/-- The per-row effect of `FuzzyCategorizer.categorize`. -/
def fuzzyStageRow (st : FuzzyState) (r : Row) : Row :=
  match st.categories with
  | none => { r with category := "" }
  | some cs =>
    if cs.isEmpty then { r with category := "" }
    else fuzzyRow (fuzzyPatterns cs) st.threshold r

/-- The per-row effect of chain stage 1 (rule categorizer plus
stamping). -/
def stage1Row (st : ChainState) (r : Row) : Row :=
  let r1 := ruleStageRow st.categories r
  if ruleMask r1 then { r1 with categorized_by := "rule_based" } else r1

/-- The per-row effect of chain stage 2 (fuzzy categorizer on the
uncategorized subset plus write-back). -/
def stage2Row (st : ChainState) (r : Row) : Row :=
  if r.category = "" then
    let f := fuzzyStageRow ⟨st.categories, st.threshold⟩ r
    if f.category ≠ "" then { r with category := f.category, categorized_by := "fuzzy" }
    else r
  else r

/-- The per-row effect of the AI categorizer. -/
def aiStageRow (st : ChainState) (r : Row) : Row :=
  aiRow st.gen (aiExamples st.categories) (getCategoriesList st.categories) r

/-- The per-row effect of chain stage 3 when AI is enabled. -/
def stage3Row (st : ChainState) (r : Row) : Row :=
  if r.category = "" then
    let f := aiStageRow st r
    if f.category ≠ "" then { r with category := f.category, categorized_by := "ai" }
    else r
  else r

/-- The last index (in order) whose associated string satisfies `pred`;
characterizes which column survives the overwriting header scan. -/
def lastIdxMatching (pred : String → Bool) : List (Nat × String) → Option Nat
  | [] => none
  | p :: ps =>
    match lastIdxMatching pred ps with
    | some i => some i
    | none => if pred p.2 then some p.1 else none

/-- The column predicate that lets the header loop assign the date role. -/
def datePred (h : String) : Bool := hasKw dateKeywords h

/-- The column predicate that lets the header loop assign the description
role (the `elif` makes it conditional on the date keywords failing). -/
def descPred (h : String) : Bool := !hasKw dateKeywords h && hasKw descKeywords h

/-- The column predicate that lets the header loop assign the amount
role. -/
def amountPred (h : String) : Bool :=
  !hasKw dateKeywords h && !hasKw descKeywords h && hasKw amountKeywords h

theorem rule_categorize_eq_map (cats : Option (List (String × String)))
    (rows : List Row) :
    RuleBasedCategorizer.categorize cats rows = rows.map (ruleStageRow cats) := by
  cases cats with
  | none => simp [RuleBasedCategorizer.categorize, ruleStageRow]
  | some cs =>
    by_cases h : cs.isEmpty <;>
      simp [RuleBasedCategorizer.categorize, ruleStageRow, h]

theorem fuzzy_categorize_eq_map (st : FuzzyState) (rows : List Row) :
    FuzzyCategorizer.categorize st rows = rows.map (fuzzyStageRow st) := by
  cases hc : st.categories with
  | none => simp [FuzzyCategorizer.categorize, fuzzyStageRow, hc]
  | some cs =>
    by_cases h : cs.isEmpty <;>
      simp [FuzzyCategorizer.categorize, fuzzyStageRow, hc, h]

theorem ai_categorize_eq_map (gen : String → Option String)
    (cats : Option (List (String × String))) (rows : List Row) :
    AICategorizer.categorize gen cats rows
    = rows.map (aiRow gen (aiExamples cats) (getCategoriesList cats)) := rfl

theorem mergeStage_map (tag : String) (g : Row → Row) :
    ∀ rows : List Row,
      mergeStage tag rows ((rows.filter (fun r => r.category = "")).map g)
      = rows.map
          (fun r =>
            if r.category = "" then
              (if (g r).category ≠ "" then
                { r with category := (g r).category, categorized_by := tag }
               else r)
            else r) := by
  intro rows
  induction rows with
  | nil => rfl
  | cons r rs ih =>
    by_cases h : r.category = "" <;>
      simp [mergeStage, List.filter_cons, h, ih]

theorem chainStage1_eq_map (st : ChainState) (txs : List Row) :
    chainStage1 st txs = txs.map (stage1Row st) := by
  rw [chainStage1, rule_categorize_eq_map, List.map_map]
  congr 1

theorem chainStage2_fst (st : ChainState) (rows : List Row) :
    (chainStage2 st rows).1 = rows.map (stage2Row st) := by
  rw [chainStage2]
  simp only [fuzzy_categorize_eq_map, mergeStage_map]
  congr 1

theorem chainStage2_snd (st : ChainState) (rows : List Row) :
    (chainStage2 st rows).2
    = rows.countP
        (fun r =>
          decide ((fuzzyStageRow ⟨st.categories, st.threshold⟩ r).category ≠ "")
            && decide (r.category = "")) := by
  rw [chainStage2]
  simp only [fuzzy_categorize_eq_map, List.countP_map, List.countP_filter]
  rfl

theorem chainStage3_fst_of_enabled (st : ChainState) (rows : List Row)
    (h : st.aiEnabled = true) :
    (chainStage3 st rows).1 = rows.map (stage3Row st) := by
  rw [chainStage3]
  simp only [h, if_true]
  simp only [ai_categorize_eq_map, mergeStage_map]
  congr 1

theorem chainStage3_snd_of_enabled (st : ChainState) (rows : List Row)
    (h : st.aiEnabled = true) :
    (chainStage3 st rows).2
    = rows.countP
        (fun r =>
          decide ((aiStageRow st r).category ≠ "") && decide (r.category = "")) := by
  rw [chainStage3]
  simp only [h, if_true]
  simp only [ai_categorize_eq_map, List.countP_map, List.countP_filter]
  rfl

theorem chainStage3_of_disabled (st : ChainState) (rows : List Row)
    (h : st.aiEnabled = false) :
    chainStage3 st rows = (rows, 0) := by
  rw [chainStage3]
  simp [h]

theorem ruleRow_category_ne (pats : RulePatterns) (r : Row)
    (h : r.category ≠ "") : ruleRow pats r = r := by
  simp [ruleRow, h]

theorem ruleRow_idem (pats : RulePatterns) (r : Row) :
    ruleRow pats (ruleRow pats r) = ruleRow pats r := by
  by_cases h : r.category = ""
  · cases hx : pats.exact.lookup (normalize_text r.description) with
    | some c =>
      by_cases hc : c = "" <;>
        simp [ruleRow, h, hx, hc]
    | none =>
      cases hy : firstSubstr pats.substr (normalize_text r.description) with
      | some c =>
        by_cases hc : c = "" <;>
          simp [ruleRow, h, hx, hy, hc]
      | none => simp [ruleRow, h, hx, hy]
  · simp [ruleRow, h]

theorem ruleStageRow_idem (cats : Option (List (String × String))) (r : Row) :
    ruleStageRow cats (ruleStageRow cats r) = ruleStageRow cats r := by
  cases cats with
  | none => simp [ruleStageRow]
  | some cs =>
    by_cases h : cs.isEmpty <;>
      simp [ruleStageRow, h, ruleRow_idem]

theorem ruleStageRow_categorized_by (cats : Option (List (String × String)))
    (r : Row) : (ruleStageRow cats r).categorized_by = r.categorized_by := by
  cases cats with
  | none => simp [ruleStageRow]
  | some cs =>
    by_cases h : cs.isEmpty
    · simp [ruleStageRow, h]
    · by_cases hc : r.category = ""
      · cases hx : (preparePatterns cs).exact.lookup (normalize_text r.description) with
        | some c => simp [ruleStageRow, h, ruleRow, hc, hx]
        | none =>
          cases hy : firstSubstr (preparePatterns cs).substr (normalize_text r.description) with
          | some c => simp [ruleStageRow, h, ruleRow, hc, hx, hy]
          | none => simp [ruleStageRow, h, ruleRow, hc, hx, hy]
      · simp [ruleStageRow, h, ruleRow, hc]

theorem stage1Row_category (st : ChainState) (r : Row) :
    (stage1Row st r).category = (ruleStageRow st.categories r).category := by
  by_cases h : ruleMask (ruleStageRow st.categories r) <;>
    simp [stage1Row, h]

theorem stage2Row_of_categorized (st : ChainState) (r : Row)
    (h : r.category ≠ "") : stage2Row st r = r := by
  simp [stage2Row, h]

theorem stage3Row_of_categorized (st : ChainState) (r : Row)
    (h : r.category ≠ "") : stage3Row st r = r := by
  simp [stage3Row, h]

theorem chain_categorize_fst (st : ChainState) (txs : List Row) :
    (ChainCategorizer.categorize st txs).1
    = (chainStage3 st (chainStage2 st (chainStage1 st txs)).1).1 := rfl

/-- C2: during one `ChainCategorizer.categorize` run, a row that holds a
category after an earlier stage is never re-visited by a later stage: its
`category` and `categorized_by` values are exactly those of the earlier
stage's output in the final frame (write-once). -/
theorem C2_write_once (st : ChainState) (txs : List Row) (i : Nat) :
    (∀ r : Row, (chainStage1 st txs)[i]? = some r → r.category ≠ "" →
        (ChainCategorizer.categorize st txs).1[i]? = some r)
    ∧ (∀ r : Row, (chainStage2 st (chainStage1 st txs)).1[i]? = some r →
        r.category ≠ "" →
        (ChainCategorizer.categorize st txs).1[i]? = some r) := by
  constructor
  · intro r hr hne
    rw [chain_categorize_fst]
    by_cases hai : st.aiEnabled
    · rw [chainStage3_fst_of_enabled st _ hai, chainStage2_fst,
        List.getElem?_map, List.getElem?_map, hr]
      simp [stage2Row_of_categorized st r hne, stage3Row_of_categorized st r hne]
    · rw [chainStage3_of_disabled st _ (by simpa using hai), chainStage2_fst,
        List.getElem?_map, hr]
      simp [stage2Row_of_categorized st r hne]
  · intro r hr hne
    rw [chain_categorize_fst]
    by_cases hai : st.aiEnabled
    · rw [chainStage3_fst_of_enabled st _ hai, List.getElem?_map, hr]
      simp [stage3Row_of_categorized st r hne]
    · rw [chainStage3_of_disabled st _ (by simpa using hai)]
      exact hr

/-- C2 witness: a concrete run in which the rule stage assigns row 0 and
the final output keeps exactly that row. -/
theorem C2_witness :
    (ChainCategorizer.categorize ⟨some [("a", "A")], 80, false, fun _ => none⟩
      [⟨"a", "", "", none⟩]).1[0]? = some ⟨"a", "A", "rule_based", none⟩ :=
  (C2_write_once ⟨some [("a", "A")], 80, false, fun _ => none⟩
    [⟨"a", "", "", none⟩] 0).1 ⟨"a", "A", "rule_based", none⟩ (by decide) (by decide)

/-- C6 counterexample: with no category table loaded,
`RuleBasedCategorizer.categorize` overwrites the whole `category` column
with `''`, so a row that already carries a category is NOT left untouched
— its category is wiped (while the claim says already-categorized rows are
never changed). -/
theorem C6_counterexample :
    RuleBasedCategorizer.categorize none [⟨"desc x", "Alimentação", "rule_based", none⟩]
    = [⟨"desc x", "", "rule_based", none⟩]
    ∧ [(⟨"desc x", "Alimentação", "rule_based", none⟩ : Row)]
      ≠ [⟨"desc x", "", "rule_based", none⟩] := by
  constructor
  · decide
  · decide

/-- C6 (amended): the Rule Matcher is idempotent
(`categorize (categorize rows) = categorize rows` for every table state,
including a missing or empty table); rows that already carry a category
are left untouched provided the category table is nonempty; and with no
category table every row comes back uncategorized (which wipes any
pre-existing categories, the correction forced by the counterexample).
The embedding is total, so no run raises. -/
theorem C6_amended :
    (∀ (cats : Option (List (String × String))) (rows : List Row),
        RuleBasedCategorizer.categorize cats (RuleBasedCategorizer.categorize cats rows)
        = RuleBasedCategorizer.categorize cats rows)
    ∧ (∀ cs : List (String × String), cs.isEmpty = false →
        ∀ (rows : List Row) (i : Nat) (r : Row),
          rows[i]? = some r → r.category ≠ "" →
          (RuleBasedCategorizer.categorize (some cs) rows)[i]? = some r)
    ∧ (∀ (rows : List Row) (r : Row),
        r ∈ RuleBasedCategorizer.categorize none rows → r.category = "") := by
  refine ⟨?_, ?_, ?_⟩
  · intro cats rows
    rw [rule_categorize_eq_map, rule_categorize_eq_map, List.map_map]
    apply List.map_congr_left
    intro r _
    exact ruleStageRow_idem cats r
  · intro cs hcs rows i r hr hne
    rw [rule_categorize_eq_map, List.getElem?_map, hr]
    simp [ruleStageRow, hcs, ruleRow_category_ne _ _ hne]
  · intro rows r hmem
    rw [rule_categorize_eq_map] at hmem
    obtain ⟨x, _, hx⟩ := List.mem_map.mp hmem
    rw [← hx]
    simp [ruleStageRow]

/-- C6 witness: the amended untouched-row guarantee at a concrete
already-categorized batch with a nonempty table. -/
theorem C6_witness :
    (RuleBasedCategorizer.categorize (some [("a", "A")])
      [⟨"z", "Lazer", "", none⟩])[0]? = some ⟨"z", "Lazer", "", none⟩ :=
  C6_amended.2.1 [("a", "A")] (by decide) [⟨"z", "Lazer", "", none⟩] 0
    ⟨"z", "Lazer", "", none⟩ (by decide) (by decide)

theorem firstSubstr_eq_find (ps : List (String × String)) (d : String) :
    firstSubstr ps d = (ps.find? (fun pc => strContains d pc.1)).map Prod.snd := by
  induction ps with
  | nil => rfl
  | cons pc rest ih =>
    by_cases h : strContains d pc.1 <;>
      simp [firstSubstr, List.find?_cons, h, ih]

/-- C3: for an uncategorized row whose normalized description is a key of
the exact-pattern dictionary, the Rule Matcher assigns that exact
pattern's category (whatever the substring dictionary holds); when the
exact lookup fails, the substring patterns are scanned in insertion order
and the first containment match wins (`find?` semantics: first match, not
longest or best). -/
theorem C3_rule_precedence (cats : List (String × String))
    (hne : cats.isEmpty = false) (rows : List Row) (i : Nat) (r : Row)
    (hr : rows[i]? = some r) (hcat : r.category = "") :
    (∀ c : String,
        (preparePatterns cats).exact.lookup (normalize_text r.description) = some c →
        (RuleBasedCategorizer.categorize (some cats) rows)[i]?
          = some { r with category := c })
    ∧ ((preparePatterns cats).exact.lookup (normalize_text r.description) = none →
        (RuleBasedCategorizer.categorize (some cats) rows)[i]?
          = some
            (match (preparePatterns cats).substr.find?
                (fun pc => strContains (normalize_text r.description) pc.1) with
             | some pc => { r with category := pc.2 }
             | none => r)) := by
  constructor
  · intro c hc
    rw [rule_categorize_eq_map, List.getElem?_map, hr]
    simp [ruleStageRow, hne, ruleRow, hcat, hc]
  · intro hc
    rw [rule_categorize_eq_map, List.getElem?_map, hr]
    cases hy : (preparePatterns cats).substr.find?
        (fun pc => strContains (normalize_text r.description) pc.1) with
    | some pc =>
      simp [ruleStageRow, hne, ruleRow, hcat, hc, firstSubstr_eq_find, hy]
    | none =>
      simp [ruleStageRow, hne, ruleRow, hcat, hc, firstSubstr_eq_find, hy]

/-- C3 witness: the spec's own scenario — table
`[(supermercado, Alimentação), (*uber*, Transporte)]`, description
`"UBER TRIP 123"`: no exact match, substring branch assigns
`Transporte`. -/
theorem C3_witness :
    (RuleBasedCategorizer.categorize
      (some [("supermercado", "Alimentação"), ("*uber*", "Transporte")])
      [⟨"UBER TRIP 123", "", "", none⟩])[0]?
    = some ⟨"UBER TRIP 123", "Transporte", "", none⟩ := by
  have h :=
    (C3_rule_precedence [("supermercado", "Alimentação"), ("*uber*", "Transporte")]
      (by decide) [⟨"UBER TRIP 123", "", "", none⟩] 0
      ⟨"UBER TRIP 123", "", "", none⟩ (by decide) (by decide)).2 (by decide)
  exact h.trans (by decide)

theorem qlt_irrefl (a : Q) : Q.lt a a = false := by
  simp [Q.lt]

theorem qlt_asymm {a b : Q} (h : Q.lt a b = true) : Q.lt b a = false := by
  simp [Q.lt] at h ⊢
  omega

theorem qge_trans {a b c : Q} (hb : 0 < b.den)
    (h1 : Q.lt a b = false) (h2 : Q.lt b c = false) : Q.lt a c = false := by
  simp [Q.lt] at h1 h2 ⊢
  have hb' : (0 : Int) < (b.den : Int) := by exact_mod_cast hb
  have t1 : b.num * a.den * c.den ≤ a.num * b.den * c.den :=
    mul_le_mul_of_nonneg_right h1 (by positivity)
  have t2 : c.num * b.den * a.den ≤ b.num * c.den * a.den :=
    mul_le_mul_of_nonneg_right h2 (by positivity)
  have key : c.num * a.den * b.den ≤ a.num * c.den * b.den := by nlinarith
  exact le_of_mul_le_mul_right key hb'

theorem mkQ_den_pos (n : Int) (d : Nat) (hd : 0 < d) : 0 < (mkQ n d).den := by
  unfold mkQ
  by_cases hg : Nat.gcd n.natAbs d = 0
  · simp [hg]
  · have hdvd : Nat.gcd n.natAbs d ∣ d := Nat.gcd_dvd_right _ _
    have hle : Nat.gcd n.natAbs d ≤ d := Nat.le_of_dvd hd hdvd
    simp only [hg, if_false]
    exact Nat.div_pos hle (Nat.pos_of_ne_zero hg)

theorem token_sort_score_den_pos (a b : String) :
    0 < (token_sort_score a b).den := by
  unfold token_sort_score indelSim
  split
  · simp [Q.ofInt]
  · next h => exact mkQ_den_pos _ _ (Nat.pos_of_ne_zero h)

theorem bestOfAux_spec (score : String → Q) (hden : ∀ p, 0 < (score p).den) :
    ∀ (ps : List String) (acc : Option (String × Q)),
      (∀ m s, acc = some (m, s) → s = score m) →
      ∀ m s,
        ps.foldl
          (fun acc p =>
            match acc with
            | none => some (p, score p)
            | some qs => if Q.lt qs.2 (score p) then some (p, score p) else acc)
          acc = some (m, s) →
        s = score m ∧ (m ∈ ps ∨ acc = some (m, s))
          ∧ (∀ p ∈ ps, Q.lt s (score p) = false)
          ∧ (∀ m0 s0, acc = some (m0, s0) → Q.lt s s0 = false) := by
  intro ps
  induction ps with
  | nil =>
    intro acc hacc m s h
    simp only [List.foldl_nil] at h
    refine ⟨hacc m s h, Or.inr h, by simp, ?_⟩
    intro m0 s0 h0
    rw [h] at h0
    cases h0
    exact qlt_irrefl _
  | cons p ps ih =>
    intro acc hacc m s h
    simp only [List.foldl_cons] at h
    cases hc : acc with
    | none =>
      subst hc
      have hacc' : ∀ m' s', some (p, score p) = some (m', s') → s' = score m' := by
        intro m' s' he
        cases he
        rfl
      obtain ⟨h1, h2, h3, h4⟩ := ih (some (p, score p)) hacc' m s h
      refine ⟨h1, ?_, ?_, ?_⟩
      · rcases h2 with h2 | h2
        · exact Or.inl (List.mem_cons_of_mem _ h2)
        · cases h2
          exact Or.inl (List.mem_cons_self _ _)
      · intro x hx
        rcases List.mem_cons.mp hx with hx | hx
        · rw [hx]
          exact h4 p (score p) rfl
        · exact h3 x hx
      · intro m0 s0 h0
        cases h0
    | some qs =>
      subst hc
      obtain ⟨q, sq⟩ := qs
      have hsq : sq = score q := hacc q sq rfl
      by_cases hlt : Q.lt sq (score p) = true
      · simp only [hlt, if_true] at h
        have hacc' : ∀ m' s', some (p, score p) = some (m', s') → s' = score m' := by
          intro m' s' he
          cases he
          rfl
        obtain ⟨h1, h2, h3, h4⟩ := ih (some (p, score p)) hacc' m s h
        have hsp : Q.lt s (score p) = false := h4 p (score p) rfl
        refine ⟨h1, ?_, ?_, ?_⟩
        · rcases h2 with h2 | h2
          · exact Or.inl (List.mem_cons_of_mem _ h2)
          · cases h2
            exact Or.inl (List.mem_cons_self _ _)
        · intro x hx
          rcases List.mem_cons.mp hx with hx | hx
          · rw [hx]
            exact hsp
          · exact h3 x hx
        · intro m0 s0 h0
          cases h0
          have hge_p_s0 : Q.lt (score p) (score q) = false := qlt_asymm (hsq ▸ hlt)
          exact hsq ▸ qge_trans (hden p) hsp hge_p_s0
      · have hlt' : Q.lt sq (score p) = false := by
          cases hq : Q.lt sq (score p)
          · rfl
          · exact absurd hq hlt
        simp only [hlt', Bool.false_eq_true, if_false] at h
        obtain ⟨h1, h2, h3, h4⟩ := ih (some (q, sq)) (by intro m' s' he; cases he; exact hsq) m s h
        have hgq : Q.lt s sq = false := h4 q sq rfl
        refine ⟨h1, ?_, ?_, ?_⟩
        · rcases h2 with h2 | h2
          · exact Or.inl (List.mem_cons_of_mem _ h2)
          · exact Or.inr h2
        · intro x hx
          rcases List.mem_cons.mp hx with hx | hx
          · rw [hx]
            exact qge_trans (hsq ▸ hden q) hgq (hsq ▸ hlt')
          · exact h3 x hx
        · intro m0 s0 h0
          cases h0
          exact hgq

theorem bestOf_spec (score : String → Q) (hden : ∀ p, 0 < (score p).den)
    (ps : List String) (m : String) (s : Q) (h : bestOf score ps = some (m, s)) :
    m ∈ ps ∧ s = score m ∧ ∀ p ∈ ps, Q.lt s (score p) = false := by
  obtain ⟨h1, h2, h3, _⟩ :=
    bestOfAux_spec score hden ps none (by intro m' s' he; cases he) m s h
  rcases h2 with h2 | h2
  · exact ⟨h2, h1, h3⟩
  · cases h2

theorem dictInsert_ne_nil (d : List (String × String)) (k v : String) :
    dictInsert d k v ≠ [] := by
  unfold dictInsert
  split
  · next h =>
    intro he
    rw [List.map_eq_nil_iff] at he
    subst he
    simp at h
  · simp

theorem foldl_fuzzyDict_ne_nil :
    ∀ (l : List (String × String)) (d : List (String × String)), d ≠ [] →
      l.foldl (fun d pc => dictInsert d (normalize_text (pyStrip pc.1)) (pyStrip pc.2)) d
        ≠ [] := by
  intro l
  induction l with
  | nil => intro d hd; simpa using hd
  | cons pc rest ih =>
    intro d _
    simp only [List.foldl_cons]
    exact ih _ (dictInsert_ne_nil _ _ _)

theorem fuzzyPatterns_ne_nil (cats : List (String × String))
    (h : cats.isEmpty = false) : fuzzyPatterns cats ≠ [] := by
  cases cats with
  | nil => simp at h
  | cons pc rest =>
    unfold fuzzyPatterns
    simp only [List.foldl_cons]
    exact foldl_fuzzyDict_ne_nil rest _ (dictInsert_ne_nil _ _ _)

/-- C4 counterexample: the empty pattern (an empty `pattern` cell added to
the table) scores 100 against an empty normalized description — at or
above any threshold — yet the row is NOT assigned, because the code's
`if match and score >= threshold` rejects the falsy empty-string match.
The claim ("accepted exactly when its similarity score ≥ threshold")
predicts assignment here. -/
theorem C4_counterexample :
    bestOf (fun p => token_sort_score (normalize_text ("")) p)
        ((fuzzyPatterns [("", "X")]).map Prod.fst) = some ("", Q.ofInt 100)
    ∧ Q.intLe 80 (Q.ofInt 100) = true
    ∧ FuzzyCategorizer.categorize ⟨some [("", "X")], 80⟩ [⟨"", "", "", none⟩]
      = [⟨"", "", "", none⟩] := by
  refine ⟨by decide, by decide, by decide⟩

/-- C4 (amended): for every uncategorized row the Fuzzy Matcher keeps the
single highest-scoring pattern (earliest on ties) and accepts it exactly
when it is a non-empty string AND its score is ≥ the threshold (so a best
score equal to the threshold is accepted and threshold−1 is rejected),
recording the score on the row; the non-emptiness condition is the
correction forced by the counterexample. -/
theorem C4_amended (cats : List (String × String)) (hne : cats.isEmpty = false)
    (thr : Int) (rows : List Row) (i : Nat) (r : Row)
    (hr : rows[i]? = some r) (hcat : r.category = "") :
    ((FuzzyCategorizer.categorize ⟨some cats, thr⟩ rows)[i]?
      = some
        (match bestOf (fun p => token_sort_score (normalize_text r.description) p)
            ((fuzzyPatterns cats).map Prod.fst) with
         | none => r
         | some ms =>
           if ms.1 ≠ "" && Q.intLe thr ms.2 then
             { r with category := ((fuzzyPatterns cats).lookup ms.1).getD "",
                      match_score := some ms.2 }
           else r))
    ∧ (∀ m s,
        bestOf (fun p => token_sort_score (normalize_text r.description) p)
          ((fuzzyPatterns cats).map Prod.fst) = some (m, s) →
        m ∈ (fuzzyPatterns cats).map Prod.fst
        ∧ s = token_sort_score (normalize_text r.description) m
        ∧ ∀ p ∈ (fuzzyPatterns cats).map Prod.fst,
            Q.lt s (token_sort_score (normalize_text r.description) p) = false) := by
  constructor
  · rw [fuzzy_categorize_eq_map, List.getElem?_map, hr]
    have hps : ((fuzzyPatterns cats).map Prod.fst).isEmpty = false := by
      cases hd : fuzzyPatterns cats with
      | nil => exact absurd hd (fuzzyPatterns_ne_nil cats hne)
      | cons a l => simp
    cases hb : bestOf (fun p => token_sort_score (normalize_text r.description) p)
        ((fuzzyPatterns cats).map Prod.fst) with
    | none =>
      simp [fuzzyStageRow, hne, fuzzyRow, hcat, find_best_match, hps, extractOne, hb]
    | some ms =>
      by_cases hcut : Q.intLe thr ms.2
      · by_cases hm : ms.1 = "" <;>
          simp [fuzzyStageRow, hne, fuzzyRow, hcat, find_best_match, hps, extractOne,
            hb, hcut, hm]
      · simp [fuzzyStageRow, hne, fuzzyRow, hcat, find_best_match, hps, extractOne,
          hb, hcut]
  · intro m s hb
    exact bestOf_spec _ (fun p => token_sort_score_den_pos _ p) _ m s hb

/-- C4 witness: with pattern `ab` and threshold 100, the description `ab`
scores exactly 100 = threshold and is accepted with the score recorded;
with threshold 51, the description `ad` scores 50 = threshold − 1 and is
rejected. -/
theorem C4_witness :
    (FuzzyCategorizer.categorize ⟨some [("ab", "A")], 100⟩
      [⟨"ab", "", "", none⟩])[0]? = some ⟨"ab", "A", "", some (Q.ofInt 100)⟩
    ∧ (FuzzyCategorizer.categorize ⟨some [("ab", "A")], 51⟩
      [⟨"ad", "", "", none⟩])[0]? = some ⟨"ad", "", "", none⟩ := by
  constructor
  · exact ((C4_amended [("ab", "A")] (by decide) 100 [⟨"ab", "", "", none⟩] 0
      ⟨"ab", "", "", none⟩ (by decide) (by decide)).1).trans (by decide)
  · exact ((C4_amended [("ab", "A")] (by decide) 51 [⟨"ad", "", "", none⟩] 0
      ⟨"ad", "", "", none⟩ (by decide) (by decide)).1).trans (by decide)

theorem roleStep_date (acc : ColIndices) (p : Nat × String) :
    (roleStep acc p).date = if datePred p.2 then some p.1 else acc.date := by
  by_cases h1 : hasKw dateKeywords p.2 <;>
    by_cases h2 : hasKw descKeywords p.2 <;>
      by_cases h3 : hasKw amountKeywords p.2 <;>
        simp [roleStep, datePred, h1, h2, h3]

theorem roleStep_description (acc : ColIndices) (p : Nat × String) :
    (roleStep acc p).description
    = if descPred p.2 then some p.1 else acc.description := by
  by_cases h1 : hasKw dateKeywords p.2 <;>
    by_cases h2 : hasKw descKeywords p.2 <;>
      by_cases h3 : hasKw amountKeywords p.2 <;>
        simp [roleStep, descPred, h1, h2, h3]

theorem roleStep_amount (acc : ColIndices) (p : Nat × String) :
    (roleStep acc p).amount = if amountPred p.2 then some p.1 else acc.amount := by
  by_cases h1 : hasKw dateKeywords p.2 <;>
    by_cases h2 : hasKw descKeywords p.2 <;>
      by_cases h3 : hasKw amountKeywords p.2 <;>
        simp [roleStep, amountPred, h1, h2, h3]

theorem roleFold_date :
    ∀ (ps : List (Nat × String)) (acc : ColIndices),
      (ps.foldl roleStep acc).date
      = match lastIdxMatching datePred ps with
        | some i => some i
        | none => acc.date := by
  intro ps
  induction ps with
  | nil => intro acc; rfl
  | cons p ps ih =>
    intro acc
    simp only [List.foldl_cons, lastIdxMatching]
    rw [ih]
    cases hli : lastIdxMatching datePred ps with
    | some i => simp
    | none =>
      by_cases hp : datePred p.2 <;>
        simp [roleStep_date, hp]

theorem roleFold_description :
    ∀ (ps : List (Nat × String)) (acc : ColIndices),
      (ps.foldl roleStep acc).description
      = match lastIdxMatching descPred ps with
        | some i => some i
        | none => acc.description := by
  intro ps
  induction ps with
  | nil => intro acc; rfl
  | cons p ps ih =>
    intro acc
    simp only [List.foldl_cons, lastIdxMatching]
    rw [ih]
    cases hli : lastIdxMatching descPred ps with
    | some i => simp
    | none =>
      by_cases hp : descPred p.2 <;>
        simp [roleStep_description, hp]

theorem roleFold_amount :
    ∀ (ps : List (Nat × String)) (acc : ColIndices),
      (ps.foldl roleStep acc).amount
      = match lastIdxMatching amountPred ps with
        | some i => some i
        | none => acc.amount := by
  intro ps
  induction ps with
  | nil => intro acc; rfl
  | cons p ps ih =>
    intro acc
    simp only [List.foldl_cons, lastIdxMatching]
    rw [ih]
    cases hli : lastIdxMatching amountPred ps with
    | some i => simp
    | none =>
      by_cases hp : amountPred p.2 <;>
        simp [roleStep_amount, hp]

theorem lastIdxMatching_mem (pred : String → Bool) :
    ∀ (ps : List (Nat × String)) (i : Nat), lastIdxMatching pred ps = some i →
      ∃ h, (i, h) ∈ ps ∧ pred h = true := by
  intro ps
  induction ps with
  | nil => intro i h; simp [lastIdxMatching] at h
  | cons p ps ih =>
    intro i h
    simp only [lastIdxMatching] at h
    cases hli : lastIdxMatching pred ps with
    | some j =>
      rw [hli] at h
      cases h
      obtain ⟨x, hx, hpx⟩ := ih i hli
      exact ⟨x, List.mem_cons_of_mem _ hx, hpx⟩
    | none =>
      rw [hli] at h
      by_cases hp : pred p.2
      · rw [if_pos hp] at h
        cases h
        exact ⟨p.2, by simp, hp⟩
      · rw [if_neg hp] at h
        cases h

theorem lastIdxMatching_none_of_all (pred : String → Bool) :
    ∀ ps : List (Nat × String), (∀ p ∈ ps, pred p.2 = false) →
      lastIdxMatching pred ps = none := by
  intro ps
  induction ps with
  | nil => intro _; rfl
  | cons p ps ih =>
    intro hall
    have htail := ih (fun q hq => hall q (List.mem_cons_of_mem _ hq))
    simp only [lastIdxMatching, htail, hall p (by simp)]
    rfl

theorem withIdxFrom_fst_ge :
    ∀ (l : List α) (n : Nat) (p : Nat × α), p ∈ withIdxFrom n l → n ≤ p.1 := by
  intro l
  induction l with
  | nil => intro n p h; simp [withIdxFrom] at h
  | cons a l ih =>
    intro n p h
    rcases List.mem_cons.mp h with h | h
    · subst h; exact Nat.le_refl _
    · exact Nat.le_of_succ_le (ih (n + 1) p h)

theorem withIdxFrom_fst_inj :
    ∀ (l : List α) (n : Nat) (i : Nat) (x y : α),
      (i, x) ∈ withIdxFrom n l → (i, y) ∈ withIdxFrom n l → x = y := by
  intro l
  induction l with
  | nil => intro n i x y hx; simp [withIdxFrom] at hx
  | cons a l ih =>
    intro n i x y hx hy
    rcases List.mem_cons.mp hx with hx | hx <;>
      rcases List.mem_cons.mp hy with hy | hy
    · rw [Prod.mk.injEq] at hx hy
      rw [hx.2, hy.2]
    · exfalso
      have := withIdxFrom_fst_ge l (n + 1) (i, y) hy
      rw [Prod.mk.injEq] at hx
      omega
    · exfalso
      have := withIdxFrom_fst_ge l (n + 1) (i, x) hx
      rw [Prod.mk.injEq] at hy
      omega
    · exact ih (n + 1) i x y hx hy

theorem withIdxFrom_snd_mem :
    ∀ (l : List α) (n : Nat) (p : Nat × α), p ∈ withIdxFrom n l → p.2 ∈ l := by
  intro l
  induction l with
  | nil => intro n p h; simp [withIdxFrom] at h
  | cons a l ih =>
    intro n p h
    rcases List.mem_cons.mp h with h | h
    · subst h; simp
    · exact List.mem_cons_of_mem _ (ih (n + 1) p h)

/-- C5 counterexample: in the header `[data, dia, historico, valor]` both
column 0 and column 1 match a date keyword; the code assigns the date role
to column 1 (the dictionary write of the later iteration overwrites the
earlier one), while the claim says the first matching column (index 0)
wins. -/
theorem C5_counterexample :
    identify_columns [some ("data"), some ("dia"), some ("historico"), some ("valor")]
      = ⟨some 1, some 2, some 3⟩
    ∧ hasKw dateKeywords (normHeaderCell (some ("data"))) = true := by
  exact ⟨by decide, by decide⟩

/-- C5 (amended): for each role the LAST column (highest index) whose
normalized header contains one of that role's keywords — with the
per-column priority date over description over amount coming from the
`elif` chain — is the one assigned (the correction forced by the
counterexample: last, not first); and a single column is assigned at most
one role. -/
theorem C5_amended (header : List (Option String)) :
    ((identify_columns header).date
      = lastIdxMatching datePred (withIdx (header.map normHeaderCell)))
    ∧ ((identify_columns header).description
      = lastIdxMatching descPred (withIdx (header.map normHeaderCell)))
    ∧ ((identify_columns header).amount
      = lastIdxMatching amountPred (withIdx (header.map normHeaderCell)))
    ∧ (∀ i : Nat, (identify_columns header).date = some i →
        (identify_columns header).description ≠ some i
        ∧ (identify_columns header).amount ≠ some i)
    ∧ (∀ i : Nat, (identify_columns header).description = some i →
        (identify_columns header).amount ≠ some i) := by
  have hall : (header.isEmpty || header.all (fun c => c = none)) = true →
      ∀ p ∈ withIdx (header.map normHeaderCell), p.2 = "" := by
    intro h p hp
    have hmem := withIdxFrom_snd_mem _ 0 p hp
    obtain ⟨c, hc, hcp⟩ := List.mem_map.mp hmem
    rcases Bool.or_eq_true_iff.mp h with h | h
    · rw [List.isEmpty_iff] at h
      subst h
      simp at hc
    · have := List.all_eq_true.mp h c hc
      have hcn : c = none := by simpa using this
      rw [← hcp, hcn]
      rfl
  have hdate : (identify_columns header).date
      = lastIdxMatching datePred (withIdx (header.map normHeaderCell)) := by
    unfold identify_columns
    by_cases h : (header.isEmpty || header.all (fun c => c = none)) = true
    · rw [if_pos h,
        lastIdxMatching_none_of_all datePred _
          (fun p hp => by rw [hall h p hp]; decide)]
    · rw [if_neg h, roleFold_date]
      cases lastIdxMatching datePred (withIdx (header.map normHeaderCell)) <;> rfl
  have hdesc : (identify_columns header).description
      = lastIdxMatching descPred (withIdx (header.map normHeaderCell)) := by
    unfold identify_columns
    by_cases h : (header.isEmpty || header.all (fun c => c = none)) = true
    · rw [if_pos h,
        lastIdxMatching_none_of_all descPred _
          (fun p hp => by rw [hall h p hp]; decide)]
    · rw [if_neg h, roleFold_description]
      cases lastIdxMatching descPred (withIdx (header.map normHeaderCell)) <;> rfl
  have hamount : (identify_columns header).amount
      = lastIdxMatching amountPred (withIdx (header.map normHeaderCell)) := by
    unfold identify_columns
    by_cases h : (header.isEmpty || header.all (fun c => c = none)) = true
    · rw [if_pos h,
        lastIdxMatching_none_of_all amountPred _
          (fun p hp => by rw [hall h p hp]; decide)]
    · rw [if_neg h, roleFold_amount]
      cases lastIdxMatching amountPred (withIdx (header.map normHeaderCell)) <;> rfl
  refine ⟨hdate, hdesc, hamount, ?_, ?_⟩
  · intro i hi
    rw [hdate] at hi
    obtain ⟨x, hx, hpx⟩ := lastIdxMatching_mem datePred _ i hi
    constructor
    · intro hdi
      rw [hdesc] at hdi
      obtain ⟨y, hy, hpy⟩ := lastIdxMatching_mem descPred _ i hdi
      have hxy := withIdxFrom_fst_inj _ 0 i x y hx hy
      subst hxy
      simp [datePred] at hpx
      simp [descPred, hpx] at hpy
    · intro hai
      rw [hamount] at hai
      obtain ⟨y, hy, hpy⟩ := lastIdxMatching_mem amountPred _ i hai
      have hxy := withIdxFrom_fst_inj _ 0 i x y hx hy
      subst hxy
      simp [datePred] at hpx
      simp [amountPred, hpx] at hpy
  · intro i hi
    rw [hdesc] at hi
    obtain ⟨x, hx, hpx⟩ := lastIdxMatching_mem descPred _ i hi
    intro hai
    rw [hamount] at hai
    obtain ⟨y, hy, hpy⟩ := lastIdxMatching_mem amountPred _ i hai
    have hxy := withIdxFrom_fst_inj _ 0 i x y hx hy
    subst hxy
    simp [descPred, amountPred] at hpx hpy
    rw [hpx.2] at hpy
    simp at hpy

/-- C5 witness: the at-most-one-role guarantee applied at a concrete
header where the date role lands on column 0. -/
theorem C5_witness :
    (identify_columns [some ("data"), some ("historico"), some ("valor")]).description
      ≠ some 0
    ∧ (identify_columns [some ("data"), some ("historico"), some ("valor")]).amount
      ≠ some 0 :=
  (C5_amended [some ("data"), some ("historico"), some ("valor")]).2.2.2.1 0 (by decide)

theorem tryFormats_eq_findSome :
    ∀ (fs : List DateFmt) (s : String),
      tryFormats fs s = fs.findSome? (fun f => (strpParse f s).map isoString) := by
  intro fs
  induction fs with
  | nil => intro s; rfl
  | cons f fs ih =>
    intro s
    simp only [tryFormats, List.findSome?_cons]
    cases h : strpParse f s with
    | some d => simp
    | none => simp [ih]

theorem parseDayMonth_bounds (hi : Nat) (cs : List Char) (v : Nat)
    (h : parseDayMonth hi cs = some v) : 1 ≤ v ∧ v ≤ hi := by
  unfold parseDayMonth at h
  split at h
  · split at h
    next hcond =>
      cases h
      simp only [Bool.and_eq_true, decide_eq_true_eq] at hcond
      exact hcond
    next => cases h
  · cases h

theorem parseYear4_pos (cs : List Char) (v : Nat) (h : parseYear4 cs = some v) :
    1 ≤ v := by
  unfold parseYear4 at h
  split at h
  · split at h
    next hcond =>
      cases h
      simpa using hcond
    next => cases h
  · cases h

theorem parseYear2_pos (cs : List Char) (v : Nat) (h : parseYear2 cs = some v) :
    1 ≤ v := by
  unfold parseYear2 at h
  split at h
  · cases h
    split <;> omega
  · cases h

theorem strpFields_bounds (f : DateFmt) (a b c : List Char) (d : PyDate)
    (h : strpFields f a b c = some d) :
    1 ≤ d.year ∧ 1 ≤ d.month ∧ d.month ≤ 12 ∧ 1 ≤ d.day
      ∧ d.day ≤ daysInMonth d.year d.month := by
  unfold strpFields at h
  split at h
  next y m dd hy hm hd =>
    split at h
    next hle =>
      cases h
      obtain ⟨hm1, hm2⟩ := parseDayMonth_bounds 12 b m hm
      obtain ⟨hd1, _⟩ := parseDayMonth_bounds 31 _ dd hd
      have hy1 : 1 ≤ y := by
        by_cases htwo : f.twoDigitYear
        · rw [if_pos htwo] at hy
          exact parseYear2_pos _ y hy
        · rw [if_neg htwo] at hy
          exact parseYear4_pos _ y hy
      exact ⟨hy1, hm1, hm2, hd1, hle⟩
    next => cases h
  next => cases h

theorem strpParse_bounds (f : DateFmt) (s : String) (d : PyDate)
    (h : strpParse f s = some d) :
    1 ≤ d.year ∧ 1 ≤ d.month ∧ d.month ≤ 12 ∧ 1 ≤ d.day
      ∧ d.day ≤ daysInMonth d.year d.month := by
  unfold strpParse at h
  split at h
  next a b c hs => exact strpFields_bounds f a b c d h
  next => cases h

/-- C7: date normalization tries the fixed ordered format list (slash, dot
and dash separators, two- or four-digit years), the first successful parse
wins (`findSome?` semantics), every successful result is the ISO-8601
rendering of a calendar-valid parsed date, and a date string matching no
format makes `_normalize_dataframe` drop that row from the final table —
the function is total, so nothing is raised. -/
theorem C7_date_normalization :
    (∀ s : String,
        normalize_date s
        = dateFormats.findSome? (fun f => (strpParse f (cleanDate s)).map isoString))
    ∧ (∀ (s : String) (r : String), normalize_date s = some r →
        ∃ d : PyDate, r = isoString d ∧ 1 ≤ d.year ∧ 1 ≤ d.month ∧ d.month ≤ 12
          ∧ 1 ≤ d.day ∧ d.day ≤ daysInMonth d.year d.month)
    ∧ (∀ (pre post : List RawTx) (row : RawTx), normalize_date row.date = none →
        normalize_dataframe (pre ++ row :: post)
        = normalize_dataframe pre ++ normalize_dataframe post) := by
  have hmain : ∀ s : String,
      normalize_date s
      = dateFormats.findSome? (fun f => (strpParse f (cleanDate s)).map isoString) := by
    intro s
    by_cases h : s = ""
    · subst h
      decide
    · rw [normalize_date, if_neg h, tryFormats_eq_findSome]
  refine ⟨hmain, ?_, ?_⟩
  · intro s r hr
    rw [hmain] at hr
    obtain ⟨f, _, hf⟩ := List.exists_of_findSome?_eq_some hr
    obtain ⟨d, hd, hiso⟩ := Option.map_eq_some'.mp hf
    obtain ⟨h1, h2, h3, h4, h5⟩ := strpParse_bounds f (cleanDate s) d hd
    exact ⟨d, hiso.symm, h1, h2, h3, h4, h5⟩
  · intro pre post row h
    have hrow :
        (match normalize_date row.date, normalize_amount row.amount with
         | some d, some a => some (⟨d, normalize_text row.description, a⟩ : Tx)
         | _, _ => none) = none := by
      rw [h]
    simp only [normalize_dataframe, List.filterMap_append, List.filterMap_cons, hrow]

/-- C7 witness: an unrecognized date drops its row (no exception) while a
recognized one round-trips to ISO-8601. -/
theorem C7_witness :
    normalize_dataframe [⟨"31 de dezembro", "x", "1,00"⟩] = []
    ∧ normalize_date ("31/12/2021") = some ("2021-12-31") := by
  constructor
  · have h := C7_date_normalization.2.2 [] [] ⟨"31 de dezembro", "x", "1,00"⟩
      (by decide)
    simpa using h
  · decide

theorem toList_mk (cs : List Char) : (String.mk cs).toList = cs := rfl

theorem contains_eq_false_of_not_mem (l : List Char) (c : Char)
    (h : c ∉ l) : l.contains c = false := by
  induction l with
  | nil => rfl
  | cons x xs ih =>
    have hx : ¬(c = x) := fun he => h (he ▸ List.mem_cons_self _ _)
    have hxs := ih (fun hm => h (List.mem_cons_of_mem _ hm))
    simp only [List.contains_cons]
    rw [hxs]
    simp [hx]

theorem filter_ne_dot_eq_filter_digit :
    ∀ cs : List Char, (∀ c ∈ cs, c.isDigit = true ∨ c = '.') →
      cs.filter (fun c => c ≠ '.') = cs.filter Char.isDigit := by
  intro cs
  induction cs with
  | nil => intro _; rfl
  | cons c tl ih =>
    intro h
    have htl := ih (fun x hx => h x (List.mem_cons_of_mem _ hx))
    rcases h c (List.mem_cons_self _ _) with hc | hc
    · have hne : ¬(c = '.') := by
        intro he
        rw [he] at hc
        exact absurd hc (by decide)
      simp [List.filter_cons, hc, hne]
      simpa using htl
    · subst hc
      simp [List.filter_cons, (show ('.' : Char).isDigit = false by decide)]
      simpa using htl

theorem map_commaDot_of_no_comma (l : List Char) (h : ∀ c ∈ l, ¬(c = ',')) :
    l.map (fun c => if c = ',' then '.' else c) = l := by
  induction l with
  | nil => rfl
  | cons c tl ih =>
    have hc := h c (List.mem_cons_self _ _)
    simp [hc, ih (fun x hx => h x (List.mem_cons_of_mem _ hx))]

theorem takeWhile_digits_dot (ds fs : List Char)
    (h : ∀ c ∈ ds, c.isDigit = true) :
    (ds ++ '.' :: fs).takeWhile Char.isDigit = ds := by
  induction ds with
  | nil => simp [List.takeWhile_cons, (show ('.' : Char).isDigit = false by decide)]
  | cons d tl ih =>
    have hd := h d (List.mem_cons_self _ _)
    simp [List.takeWhile_cons, hd, ih (fun x hx => h x (List.mem_cons_of_mem _ hx))]

theorem dropWhile_digits_dot (ds fs : List Char)
    (h : ∀ c ∈ ds, c.isDigit = true) :
    (ds ++ '.' :: fs).dropWhile Char.isDigit = '.' :: fs := by
  induction ds with
  | nil => simp [List.dropWhile_cons, (show ('.' : Char).isDigit = false by decide)]
  | cons d tl ih =>
    have hd := h d (List.mem_cons_self _ _)
    simp [List.dropWhile_cons, hd, ih (fun x hx => h x (List.mem_cons_of_mem _ hx))]

theorem pyFloatCore_digits_dot (ds fs : List Char)
    (hds : ∀ c ∈ ds, c.isDigit = true) (hne : fs ≠ [])
    (hfs : ∀ c ∈ fs, c.isDigit = true) :
    pyFloatCore (ds ++ '.' :: fs)
    = some (mkQ (digitsToNat ds * 10 ^ fs.length + digitsToNat fs)
        (10 ^ fs.length)) := by
  unfold pyFloatCore
  rw [takeWhile_digits_dot ds fs hds, dropWhile_digits_dot ds fs hds]
  have hall : fs.all Char.isDigit = true := List.all_eq_true.mpr hfs
  have hcond : (fs.all Char.isDigit && (!ds.isEmpty || !fs.isEmpty)) = true := by
    cases fs with
    | nil => exact absurd rfl hne
    | cons f ftl => simp [hall]
  simp [hall, hcond]
  cases fs with
  | nil => exact absurd rfl hne
  | cons f ftl => simp

theorem pyFloat_digits_head (ds fs : List Char)
    (h : ∀ c ∈ ds, c.isDigit = true) :
    pyFloat (ds ++ '.' :: fs) = pyFloatCore (ds ++ '.' :: fs) := by
  unfold pyFloat
  split
  · next rest hminus =>
    exfalso
    cases ds with
    | nil => simp at hminus
    | cons d tl =>
      rw [List.cons_append, List.cons.injEq] at hminus
      have hd := h d (List.mem_cons_self _ _)
      rw [hminus.1] at hd
      exact absurd hd (by decide)
  · next rest hplus =>
    exfalso
    cases ds with
    | nil => simp at hplus
    | cons d tl =>
      rw [List.cons_append, List.cons.injEq] at hplus
      have hd := h d (List.mem_cons_self _ _)
      rw [hplus.1] at hd
      exact absurd hd (by decide)
  · rfl

theorem core_keep_all (is fs : List Char)
    (h1 : ∀ c ∈ is, c.isDigit = true ∨ c = '.')
    (h3 : ∀ c ∈ fs, c.isDigit = true) :
    ∀ c ∈ is ++ ',' :: fs, keepAmountChar c = true := by
  intro c hc
  rcases List.mem_append.mp hc with hc | hc
  · rcases h1 c hc with hd | hd
    · simp [keepAmountChar, hd]
    · subst hd; decide
  · rcases List.mem_cons.mp hc with hc | hc
    · subst hc; decide
    · simp [keepAmountChar, h3 c hc]

theorem core_clean3 (is fs : List Char)
    (h1 : ∀ c ∈ is, c.isDigit = true ∨ c = '.')
    (h3 : ∀ c ∈ fs, c.isDigit = true) :
    ((is ++ ',' :: fs).filter (fun c => c ≠ '.')).map
      (fun c => if c = ',' then '.' else c)
    = is.filter Char.isDigit ++ '.' :: fs := by
  have hfsnd : (',' :: fs).filter (fun c => c ≠ '.') = ',' :: fs := by
    rw [List.filter_eq_self]
    intro c hc
    rcases List.mem_cons.mp hc with hc | hc
    · subst hc; decide
    · have := h3 c hc
      simp only [decide_eq_true_eq]
      intro he
      rw [he] at this
      exact absurd this (by decide)
  rw [List.filter_append, filter_ne_dot_eq_filter_digit is h1, hfsnd,
    List.map_append]
  have hdig : ∀ c ∈ is.filter Char.isDigit, ¬(c = ',') := by
    intro c hc he
    have := List.of_mem_filter hc
    rw [he] at this
    exact absurd this (by decide)
  rw [map_commaDot_of_no_comma _ hdig]
  have hnc : ∀ c ∈ fs, ¬(c = ',') := by
    intro c hc he
    have := h3 c hc
    rw [he] at this
    exact absurd this (by decide)
  have hfsmap : (',' :: fs).map (fun c => if c = ',' then '.' else c) = '.' :: fs := by
    rw [List.map_cons, map_commaDot_of_no_comma fs hnc]
    simp
  rw [hfsmap]

theorem normalize_amount_empty_filter (t : String)
    (htf : t.toList.filter keepAmountChar = [])
    (hpt : (t.toList.contains '(' && t.toList.contains ')') = false) :
    normalize_amount t = none := by
  by_cases ht : t = ""
  · rw [ht]
    rfl
  · simp only [normalize_amount, if_neg ht]
    rw [htf, hpt]
    rfl

/-- C8: amount normalization (a) depends only on the kept characters
(digits, signs, separators) and on parenthesization — every other
character, currency symbols included, is stripped; (b) reads digit strings
with comma as the decimal point and any dots as ignored thousands
separators; (c) treats a parenthesized amount as negated; (d) honours a
leading minus sign; and (e) a string that still fails conversion makes
`_normalize_dataframe` drop the row — the function is total, so nothing is
raised. -/
theorem C8_amount_normalization :
    (∀ s t : String,
        s.toList.filter keepAmountChar = t.toList.filter keepAmountChar →
        (s.toList.contains '(' && s.toList.contains ')')
          = (t.toList.contains '(' && t.toList.contains ')') →
        normalize_amount s = normalize_amount t)
    ∧ (∀ intPart fracPart : List Char,
        (∀ c ∈ intPart, c.isDigit = true ∨ c = '.') → fracPart ≠ [] →
        (∀ c ∈ fracPart, c.isDigit = true) →
        normalize_amount (String.mk (intPart ++ ',' :: fracPart))
          = some (mkQ (digitsToNat (intPart.filter Char.isDigit)
              * 10 ^ fracPart.length + digitsToNat fracPart)
              (10 ^ fracPart.length)))
    ∧ (∀ intPart fracPart : List Char,
        (∀ c ∈ intPart, c.isDigit = true ∨ c = '.') → fracPart ≠ [] →
        (∀ c ∈ fracPart, c.isDigit = true) →
        normalize_amount (String.mk ('(' :: (intPart ++ ',' :: fracPart) ++ [')']))
          = some (Q.neg (mkQ (digitsToNat (intPart.filter Char.isDigit)
              * 10 ^ fracPart.length + digitsToNat fracPart)
              (10 ^ fracPart.length))))
    ∧ (∀ intPart fracPart : List Char,
        (∀ c ∈ intPart, c.isDigit = true ∨ c = '.') → fracPart ≠ [] →
        (∀ c ∈ fracPart, c.isDigit = true) →
        normalize_amount (String.mk ('-' :: (intPart ++ ',' :: fracPart)))
          = some (Q.neg (mkQ (digitsToNat (intPart.filter Char.isDigit)
              * 10 ^ fracPart.length + digitsToNat fracPart)
              (10 ^ fracPart.length))))
    ∧ (∀ (pre post : List RawTx) (row : RawTx), normalize_amount row.amount = none →
        normalize_dataframe (pre ++ row :: post)
        = normalize_dataframe pre ++ normalize_dataframe post) := by
  have hcore : ∀ intPart fracPart : List Char,
      (∀ c ∈ intPart, c.isDigit = true ∨ c = '.') → fracPart ≠ [] →
      (∀ c ∈ fracPart, c.isDigit = true) →
      pyFloat (((intPart ++ ',' :: fracPart).filter (fun c => c ≠ '.')).map
          (fun c => if c = ',' then '.' else c))
        = some (mkQ (digitsToNat (intPart.filter Char.isDigit)
            * 10 ^ fracPart.length + digitsToNat fracPart)
            (10 ^ fracPart.length)) := by
    intro ip fp h1 h2 h3
    rw [core_clean3 ip fp h1 h3,
      pyFloat_digits_head _ fp (fun c hc => List.of_mem_filter hc),
      pyFloatCore_digits_dot _ fp (fun c hc => List.of_mem_filter hc) h2 h3]
  have hnotparen : ∀ intPart fracPart : List Char,
      (∀ c ∈ intPart, c.isDigit = true ∨ c = '.') →
      (∀ c ∈ fracPart, c.isDigit = true) →
      ∀ c : Char, keepAmountChar c = false → c ∉ intPart ++ ',' :: fracPart := by
    intro ip fp h1 h3 c hc hm
    rw [core_keep_all ip fp h1 h3 c hm] at hc
    cases hc
  refine ⟨?_, ?_, ?_, ?_, ?_⟩
  · intro s t hf hp
    by_cases hs : s = "" <;> by_cases ht : t = ""
    · rw [hs, ht]
    · subst hs
      rw [normalize_amount_empty_filter t (by rw [← hf]; rfl) (by rw [← hp]; rfl)]
      rfl
    · subst ht
      rw [normalize_amount_empty_filter s (by rw [hf]; rfl) (by rw [hp]; rfl)]
      rfl
    · simp only [normalize_amount, if_neg hs, if_neg ht]
      rw [hf, hp]
  · intro ip fp h1 h2 h3
    have hsne : ¬(String.mk (ip ++ ',' :: fp) = "") := by
      simp [String.ext_iff]
    have hnp : ((String.mk (ip ++ ',' :: fp)).toList.contains '('
        && (String.mk (ip ++ ',' :: fp)).toList.contains ')') = false := by
      rw [toList_mk,
        contains_eq_false_of_not_mem _ _ (hnotparen ip fp h1 h3 '(' (by decide))]
      rfl
    simp only [normalize_amount, if_neg hsne, toList_mk]
    rw [toList_mk] at hnp
    rw [List.filter_eq_self.mpr (core_keep_all ip fp h1 h3), hnp]
    simp only [Bool.false_eq_true, if_false]
    exact hcore ip fp h1 h2 h3
  · intro ip fp h1 h2 h3
    have hsne : ¬(String.mk ('(' :: (ip ++ ',' :: fp) ++ [')']) = "") := by
      simp [String.ext_iff]
    have hfilter : ('(' :: (ip ++ ',' :: fp) ++ [')']).filter keepAmountChar
        = ip ++ ',' :: fp := by
      rw [List.cons_append, List.filter_cons, List.filter_append,
        List.filter_eq_self.mpr (core_keep_all ip fp h1 h3)]
      simp [keepAmountChar]
    have hp1 : ('(' :: (ip ++ ',' :: fp) ++ [')']).contains '(' = true := by
      simp [List.contains_cons]
    have hp2 : ('(' :: (ip ++ ',' :: fp) ++ [')']).contains ')' = true := by
      simp
    simp only [normalize_amount, if_neg hsne, toList_mk]
    rw [hfilter, hp1, hp2]
    simp only [Bool.and_self, if_true]
    show (pyFloatCore (((ip ++ ',' :: fp).filter (fun c => c ≠ '.')).map
        (fun c => if c = ',' then '.' else c))).map Q.neg = _
    rw [core_clean3 ip fp h1 h3,
      pyFloatCore_digits_dot _ fp (fun c hc => List.of_mem_filter hc) h2 h3]
    rfl
  · intro ip fp h1 h2 h3
    have hsne : ¬(String.mk ('-' :: (ip ++ ',' :: fp)) = "") := by
      simp [String.ext_iff]
    have hfilter : ('-' :: (ip ++ ',' :: fp)).filter keepAmountChar
        = '-' :: (ip ++ ',' :: fp) := by
      rw [List.filter_cons]
      rw [List.filter_eq_self.mpr (core_keep_all ip fp h1 h3)]
      rfl
    have hnp : ('-' :: (ip ++ ',' :: fp)).contains '(' = false := by
      apply contains_eq_false_of_not_mem
      intro hm
      rcases List.mem_cons.mp hm with hm | hm
      · cases hm
      · exact hnotparen ip fp h1 h3 '(' (by decide) hm
    simp only [normalize_amount, if_neg hsne, toList_mk]
    rw [hfilter, hnp]
    simp only [Bool.false_and, Bool.false_eq_true, if_false]
    rw [List.filter_cons]
    simp only [(show (decide (('-' : Char) ≠ '.')) = true by decide), if_true]
    rw [List.map_cons]
    simp only [(show ((if ('-' : Char) = ',' then '.' else '-')) = '-' by decide)]
    show (pyFloatCore (((ip ++ ',' :: fp).filter (fun c => c ≠ '.')).map
        (fun c => if c = ',' then '.' else c))).map Q.neg = _
    rw [core_clean3 ip fp h1 h3,
      pyFloatCore_digits_dot _ fp (fun c hc => List.of_mem_filter hc) h2 h3]
    rfl
  · intro pre post row h
    have hrow :
        (match normalize_date row.date, normalize_amount row.amount with
         | some d, some a => some (⟨d, normalize_text row.description, a⟩ : Tx)
         | _, _ => none) = none := by
      rw [h]
      cases normalize_date row.date <;> rfl
    simp only [normalize_dataframe, List.filterMap_append, List.filterMap_cons, hrow]

/-- C8 witness: the canonical Brazilian-format amount `R$ 1.234,56` is
read as 1234.56 through the strip and comma-decimal conventions. -/
theorem C8_witness :
    normalize_amount ("R$ 1.234,56") = some ⟨30864, 25⟩ := by
  have h1 := C8_amount_normalization.1 ("R$ 1.234,56") ("1.234,56")
    (by decide) (by decide)
  have h2 := C8_amount_normalization.2.1 (['1', '.', '2', '3', '4']) (['5', '6'])
    (by decide) (by decide) (by decide)
  have hs : String.mk (['1', '.', '2', '3', '4'] ++ ',' :: ['5', '6'])
      = "1.234,56" := by decide
  rw [hs] at h2
  rw [h1, h2]
  decide

/-- C9 counterexample: loading a table that lacks the `pattern` column
raises the error, but the categorizer's observable category state is NOT
the same as before the call — `categories_data` has already been
overwritten with the invalid table (visible through `get_categories`). -/
theorem C9_counterexample :
    ((load_categories ⟨some ⟨["pattern", "category"], [["sup", "A"]]⟩⟩
        ⟨["category"], [["B"]]⟩).2).isSome = true
    ∧ (load_categories ⟨some ⟨["pattern", "category"], [["sup", "A"]]⟩⟩
        ⟨["category"], [["B"]]⟩).1
      ≠ ⟨some ⟨["pattern", "category"], [["sup", "A"]]⟩⟩
    ∧ get_categories (load_categories ⟨some ⟨["pattern", "category"], [["sup", "A"]]⟩⟩
        ⟨["category"], [["B"]]⟩).1
      ≠ get_categories ⟨some ⟨["pattern", "category"], [["sup", "A"]]⟩⟩ := by
  refine ⟨by decide, by decide, by decide⟩

/-- C9 (amended): `load_categories` surfaces a `ValueError` to the caller
exactly when one of the required columns `pattern`, `category` is missing
from the read table; however — the correction forced by the
counterexample — the `categories_data` attribute is unconditionally
replaced by the newly read table before the check, so the observable
category state is the new table even on a failed load. -/
theorem C9_amended (st : BaseState) (t : CatTable) :
    ((load_categories st t).2 = none ↔
      (t.cols.contains ("pattern") = true ∧ t.cols.contains ("category") = true))
    ∧ (load_categories st t).1.categories_data = some t := by
  constructor
  · by_cases h1 : t.cols.contains ("pattern") = true <;>
      by_cases h2 : t.cols.contains ("category") = true <;>
        simp [load_categories, requiredColumns, h1, h2]
  · rfl

/-- C9 witness: a well-formed table loads without error. -/
theorem C9_witness :
    (load_categories ⟨none⟩ ⟨["pattern", "category"], [["sup", "A"]]⟩).2 = none :=
  (C9_amended ⟨none⟩ ⟨["pattern", "category"], [["sup", "A"]]⟩).1.mpr
    ⟨by decide, by decide⟩

theorem length_eq_countP_four {α : Type} (l : List α) (p1 p2 p3 p4 : α → Bool)
    (h : ∀ a ∈ l,
      (if p1 a = true then 1 else 0) + (if p2 a = true then 1 else 0)
        + (if p3 a = true then 1 else 0) + (if p4 a = true then 1 else 0) = 1) :
    l.length = l.countP p1 + l.countP p2 + l.countP p3 + l.countP p4 := by
  induction l with
  | nil => simp
  | cons a tl ih =>
    have ha := h a (List.mem_cons_self _ _)
    have htl := ih (fun x hx => h x (List.mem_cons_of_mem _ hx))
    simp only [List.countP_cons, List.length_cons]
    omega

theorem length_eq_countP_three {α : Type} (l : List α) (p1 p2 p4 : α → Bool)
    (h : ∀ a ∈ l,
      (if p1 a = true then 1 else 0) + (if p2 a = true then 1 else 0)
        + (if p4 a = true then 1 else 0) = 1) :
    l.length = l.countP p1 + l.countP p2 + l.countP p4 := by
  induction l with
  | nil => simp
  | cons a tl ih =>
    have ha := h a (List.mem_cons_self _ _)
    have htl := ih (fun x hx => h x (List.mem_cons_of_mem _ hx))
    simp only [List.countP_cons, List.length_cons]
    omega

theorem chain_row_sum (st : ChainState) (r : Row) (hr : r.categorized_by = "") :
    (if ruleMask (ruleStageRow st.categories r) = true then 1 else 0)
    + (if (decide ((fuzzyStageRow ⟨st.categories, st.threshold⟩ (stage1Row st r)).category ≠ "")
          && decide ((stage1Row st r).category = "")) = true then 1 else 0)
    + (if (decide ((aiStageRow st (stage2Row st (stage1Row st r))).category ≠ "")
          && decide ((stage2Row st (stage1Row st r)).category = "")) = true then 1 else 0)
    + (if decide ((stage3Row st (stage2Row st (stage1Row st r))).category = "") = true
        then 1 else 0)
    = 1 := by
  have hcb : (ruleStageRow st.categories r).categorized_by = "" := by
    rw [ruleStageRow_categorized_by]
    exact hr
  by_cases hA : (ruleStageRow st.categories r).category = ""
  · have hmask : ruleMask (ruleStageRow st.categories r) = false := by
      simp [ruleMask, hA]
    have hs1 : stage1Row st r = ruleStageRow st.categories r := by
      simp [stage1Row, hmask]
    rw [hs1, hmask]
    by_cases hB : (fuzzyStageRow ⟨st.categories, st.threshold⟩
        (ruleStageRow st.categories r)).category = ""
    · have hs2 : stage2Row st (ruleStageRow st.categories r)
          = ruleStageRow st.categories r := by
        simp [stage2Row, hA, hB]
      rw [hs2]
      by_cases hC : (aiStageRow st (ruleStageRow st.categories r)).category = ""
      · have hs3 : stage3Row st (ruleStageRow st.categories r)
            = ruleStageRow st.categories r := by
          simp [stage3Row, hA, hC]
        rw [hs3]
        simp [hA, hB, hC]
      · have hs3 : stage3Row st (ruleStageRow st.categories r)
            = { ruleStageRow st.categories r with
                category := (aiStageRow st (ruleStageRow st.categories r)).category,
                categorized_by := "ai" } := by
          simp [stage3Row, hA, hC]
        rw [hs3]
        simp [hA, hB, hC]
    · have hs2 : stage2Row st (ruleStageRow st.categories r)
          = { ruleStageRow st.categories r with
              category := (fuzzyStageRow ⟨st.categories, st.threshold⟩
                (ruleStageRow st.categories r)).category,
              categorized_by := "fuzzy" } := by
        simp [stage2Row, hA, hB]
      rw [hs2]
      have hs3 : stage3Row st
          { ruleStageRow st.categories r with
            category := (fuzzyStageRow ⟨st.categories, st.threshold⟩
              (ruleStageRow st.categories r)).category,
            categorized_by := "fuzzy" }
          = { ruleStageRow st.categories r with
              category := (fuzzyStageRow ⟨st.categories, st.threshold⟩
                (ruleStageRow st.categories r)).category,
              categorized_by := "fuzzy" } := by
        simp [stage3Row, hB]
      rw [hs3]
      simp [hA, hB]
  · have hmask : ruleMask (ruleStageRow st.categories r) = true := by
      simp [ruleMask, hA, hcb]
    have hs1 : stage1Row st r
        = { ruleStageRow st.categories r with categorized_by := "rule_based" } := by
      simp [stage1Row, hmask]
    rw [hs1, hmask]
    have hs2 : stage2Row st
        { ruleStageRow st.categories r with categorized_by := "rule_based" }
        = { ruleStageRow st.categories r with categorized_by := "rule_based" } := by
      simp [stage2Row, hA]
    rw [hs2]
    have hs3 : stage3Row st
        { ruleStageRow st.categories r with categorized_by := "rule_based" }
        = { ruleStageRow st.categories r with categorized_by := "rule_based" } := by
      simp [stage3Row, hA]
    rw [hs3]
    simp [hA]

theorem chain_row_sum_disabled (st : ChainState) (r : Row)
    (hr : r.categorized_by = "") :
    (if ruleMask (ruleStageRow st.categories r) = true then 1 else 0)
    + (if (decide ((fuzzyStageRow ⟨st.categories, st.threshold⟩ (stage1Row st r)).category ≠ "")
          && decide ((stage1Row st r).category = "")) = true then 1 else 0)
    + (if decide ((stage2Row st (stage1Row st r)).category = "") = true then 1 else 0)
    = 1 := by
  have hcb : (ruleStageRow st.categories r).categorized_by = "" := by
    rw [ruleStageRow_categorized_by]
    exact hr
  by_cases hA : (ruleStageRow st.categories r).category = ""
  · have hmask : ruleMask (ruleStageRow st.categories r) = false := by
      simp [ruleMask, hA]
    have hs1 : stage1Row st r = ruleStageRow st.categories r := by
      simp [stage1Row, hmask]
    rw [hs1, hmask]
    by_cases hB : (fuzzyStageRow ⟨st.categories, st.threshold⟩
        (ruleStageRow st.categories r)).category = ""
    · have hs2 : stage2Row st (ruleStageRow st.categories r)
          = ruleStageRow st.categories r := by
        simp [stage2Row, hA, hB]
      rw [hs2]
      simp [hA, hB]
    · have hs2 : stage2Row st (ruleStageRow st.categories r)
          = { ruleStageRow st.categories r with
              category := (fuzzyStageRow ⟨st.categories, st.threshold⟩
                (ruleStageRow st.categories r)).category,
              categorized_by := "fuzzy" } := by
        simp [stage2Row, hA, hB]
      rw [hs2]
      simp [hA, hB]
  · have hmask : ruleMask (ruleStageRow st.categories r) = true := by
      simp [ruleMask, hA, hcb]
    have hs1 : stage1Row st r
        = { ruleStageRow st.categories r with categorized_by := "rule_based" } := by
      simp [stage1Row, hmask]
    rw [hs1, hmask]
    have hs2 : stage2Row st
        { ruleStageRow st.categories r with categorized_by := "rule_based" }
        = { ruleStageRow st.categories r with categorized_by := "rule_based" } := by
      simp [stage2Row, hA]
    rw [hs2]
    simp [hA]

theorem chainStage3_fst_of_disabled (st : ChainState) (rows : List Row)
    (h : st.aiEnabled = false) : (chainStage3 st rows).1 = rows := by
  rw [chainStage3_of_disabled st rows h]

theorem chainStage3_snd_of_disabled (st : ChainState) (rows : List Row)
    (h : st.aiEnabled = false) : (chainStage3 st rows).2 = 0 := by
  rw [chainStage3_of_disabled st rows h]

/-- C1 counterexample: a run over an input row that already carries a
non-empty `categorized_by` (for instance the output of a previous run fed
back in).  The row is skipped by every stage and counted by none of the
four buckets, so `total = 1` while the buckets sum to `0` — the claimed
identity fails on this input DataFrame. -/
theorem C1_counterexample :
    (ChainCategorizer.categorize ⟨some [("a", "b")], 80, false, fun _ => none⟩
      [⟨"z", "x", "rule_based", none⟩]).2 = ⟨1, 0, 0, 0, 0⟩
    ∧ (1 : Nat) ≠ 0 + 0 + 0 + 0 := by
  exact ⟨by decide, by decide⟩

/-- C1 (amended): for every run of `ChainCategorizer.categorize` whose
input rows all have an empty `categorized_by` (in particular whenever the
input lacks that column, as every fresh extraction does), the recorded
statistics satisfy `total = rule_based + fuzzy + ai + uncategorized`
exactly, and `total` is the input row count.  The `Stats` value is
computed afresh inside the call (the reset), never accumulated.  The
restriction on pre-stamped rows is the correction forced by the
counterexample. -/
theorem C1_stats_invariant (st : ChainState) (txs : List Row)
    (h : ∀ r ∈ txs, r.categorized_by = "") :
    ((ChainCategorizer.categorize st txs).2.total
      = (ChainCategorizer.categorize st txs).2.rule_based
        + (ChainCategorizer.categorize st txs).2.fuzzy
        + (ChainCategorizer.categorize st txs).2.ai
        + (ChainCategorizer.categorize st txs).2.uncategorized)
    ∧ (ChainCategorizer.categorize st txs).2.total = txs.length := by
  have hT : (ChainCategorizer.categorize st txs).2.total = txs.length := rfl
  refine ⟨?_, hT⟩
  have hA : (ChainCategorizer.categorize st txs).2.rule_based
      = (RuleBasedCategorizer.categorize st.categories txs).countP ruleMask := rfl
  have hB : (ChainCategorizer.categorize st txs).2.fuzzy
      = (chainStage2 st (chainStage1 st txs)).2 := rfl
  have hC : (ChainCategorizer.categorize st txs).2.ai
      = (chainStage3 st (chainStage2 st (chainStage1 st txs)).1).2 := rfl
  have hD : (ChainCategorizer.categorize st txs).2.uncategorized
      = (chainStage3 st (chainStage2 st (chainStage1 st txs)).1).1.countP
          (fun r => r.category = "") := rfl
  rw [hT, hA, hB, hC, hD]
  rw [rule_categorize_eq_map, chainStage1_eq_map, chainStage2_snd]
  by_cases hai : st.aiEnabled
  · rw [chainStage3_snd_of_enabled _ _ hai, chainStage3_fst_of_enabled _ _ hai,
      chainStage2_fst]
    simp only [List.map_map, List.countP_map]
    exact length_eq_countP_four txs _ _ _ _ (fun a ha => chain_row_sum st a (h a ha))
  · have hai' : st.aiEnabled = false := by simpa using hai
    rw [chainStage3_snd_of_disabled _ _ hai', chainStage3_fst_of_disabled _ _ hai',
      chainStage2_fst]
    simp only [List.map_map, List.countP_map]
    rw [Nat.add_zero]
    exact length_eq_countP_three txs _ _ _
      (fun a ha => chain_row_sum_disabled st a (h a ha))

/-- C1 witness: a two-row fresh batch, one row resolved by rules and one
left uncategorized. -/
theorem C1_witness :
    ((ChainCategorizer.categorize ⟨some [("a", "A")], 80, false, fun _ => none⟩
      [⟨"a", "", "", none⟩, ⟨"zzz", "", "", none⟩]).2.total
      = (ChainCategorizer.categorize ⟨some [("a", "A")], 80, false, fun _ => none⟩
          [⟨"a", "", "", none⟩, ⟨"zzz", "", "", none⟩]).2.rule_based
        + (ChainCategorizer.categorize ⟨some [("a", "A")], 80, false, fun _ => none⟩
            [⟨"a", "", "", none⟩, ⟨"zzz", "", "", none⟩]).2.fuzzy
        + (ChainCategorizer.categorize ⟨some [("a", "A")], 80, false, fun _ => none⟩
            [⟨"a", "", "", none⟩, ⟨"zzz", "", "", none⟩]).2.ai
        + (ChainCategorizer.categorize ⟨some [("a", "A")], 80, false, fun _ => none⟩
            [⟨"a", "", "", none⟩, ⟨"zzz", "", "", none⟩]).2.uncategorized)
    ∧ (ChainCategorizer.categorize ⟨some [("a", "A")], 80, false, fun _ => none⟩
        [⟨"a", "", "", none⟩, ⟨"zzz", "", "", none⟩]).2.total = 2 :=
  C1_stats_invariant ⟨some [("a", "A")], 80, false, fun _ => none⟩
    [⟨"a", "", "", none⟩, ⟨"zzz", "", "", none⟩] (by decide)

theorem list_getElem?_set_ne {α : Type} :
    ∀ (l : List α) (i j : Nat) (a : α), j ≠ i → (l.set i a)[j]? = l[j]? := by
  intro l
  induction l with
  | nil => intro i j a _; rfl
  | cons x xs ih =>
    intro i j a h
    cases i with
    | zero =>
      cases j with
      | zero => exact absurd rfl h
      | succ j => simp [List.set]
    | succ i =>
      cases j with
      | zero => simp [List.set]
      | succ j =>
        simp only [List.set, List.getElem?_cons_succ]
        exact ih i j a (fun he => h (by rw [he]))

theorem heapGet_set_ne {σ : Heap} {v : Df} (r t : Nat) (h : t ≠ r) :
    heapGet (heapSet σ r v) t = heapGet σ t := by
  unfold heapGet heapSet
  rw [list_getElem?_set_ne σ r t v h]

theorem heapGet_append_lt (σ : Heap) (v : Df) (t : Nat) (h : t < σ.length) :
    heapGet (σ ++ [v]) t = heapGet σ t := by
  unfold heapGet
  rw [List.getElem?_append, if_pos h]

theorem heapSet_length (σ : Heap) (r : Nat) (v : Df) :
    (heapSet σ r v).length = σ.length := by
  unfold heapSet
  exact List.length_set σ r v

theorem foldl_length_pres {α : Type} (g : Heap → α → Heap)
    (hg : ∀ σ a, (g σ a).length = σ.length) :
    ∀ (l : List α) (σ : Heap), (l.foldl g σ).length = σ.length := by
  intro l
  induction l with
  | nil => intro σ; rfl
  | cons a tl ih =>
    intro σ
    rw [List.foldl_cons, ih (g σ a), hg σ a]

theorem foldl_heapGet_pres {α : Type} (g : Heap → α → Heap) (t : Nat)
    (hg : ∀ σ a, heapGet (g σ a) t = heapGet σ t) :
    ∀ (l : List α) (σ : Heap), heapGet (l.foldl g σ) t = heapGet σ t := by
  intro l
  induction l with
  | nil => intro σ; rfl
  | cons a tl ih =>
    intro σ
    rw [List.foldl_cons, ih (g σ a), hg σ a]

theorem ruleLoopStep_length (rref : Nat) (pats : RulePatterns) (σ : Heap)
    (p : Nat × String) : (ruleLoopStep rref pats σ p).length = σ.length := by
  simp only [ruleLoopStep]
  cases hcur : (heapGet σ rref)[p.1]? with
  | none => simp [hcur]
  | some row =>
    by_cases hcat : row.category ≠ ""
    · simp [hcur, hcat]
    · cases hlk : pats.exact.lookup p.2 with
      | some c => simp [hcur, hcat, hlk, heapSet_length]
      | none =>
        cases hfs : firstSubstr pats.substr p.2 with
        | some c => simp [hcur, hcat, hlk, hfs, heapSet_length]
        | none => simp [hcur, hcat, hlk, hfs]

theorem ruleLoopStep_get_ne (rref : Nat) (pats : RulePatterns) (t : Nat)
    (h : t ≠ rref) (σ : Heap) (p : Nat × String) :
    heapGet (ruleLoopStep rref pats σ p) t = heapGet σ t := by
  simp only [ruleLoopStep]
  cases hcur : (heapGet σ rref)[p.1]? with
  | none => simp [hcur]
  | some row =>
    by_cases hcat : row.category ≠ ""
    · simp [hcur, hcat]
    · cases hlk : pats.exact.lookup p.2 with
      | some c => simp [hcur, hcat, hlk, heapGet_set_ne _ _ h]
      | none =>
        cases hfs : firstSubstr pats.substr p.2 with
        | some c => simp [hcur, hcat, hlk, hfs, heapGet_set_ne _ _ h]
        | none => simp [hcur, hcat, hlk, hfs]

theorem fuzzyLoopStep_length (rref : Nat) (dict : List (String × String))
    (threshold : Int) (σ : Heap) (idx : Nat) :
    (fuzzyLoopStep rref dict threshold σ idx).length = σ.length := by
  simp only [fuzzyLoopStep]
  cases hcur : (heapGet σ rref)[idx]? with
  | none => simp [hcur]
  | some row =>
    by_cases hcat : row.category ≠ ""
    · simp [hcur, hcat]
    · cases hfb : find_best_match threshold (normalize_text row.description)
          (dict.map Prod.fst) with
      | mk mopt score =>
        cases mopt with
        | none => simp [hcur, hcat, hfb]
        | some m =>
          by_cases hacc : (¬m = "" ∧ Q.intLe threshold score = true)
          · cases hcur1 : (heapGet (heapSet σ rref
                ((heapGet σ rref).set idx
                  { row with category := (dict.lookup m).getD "" })) rref)[idx]? with
            | none => simp [hcur, hcat, hfb, hacc, hcur1, heapSet_length]
            | some row1 => simp [hcur, hcat, hfb, hacc, hcur1, heapSet_length]
          · simp [hcur, hcat, hfb, hacc]

theorem fuzzyLoopStep_get_ne (rref : Nat) (dict : List (String × String))
    (threshold : Int) (t : Nat) (h : t ≠ rref) (σ : Heap) (idx : Nat) :
    heapGet (fuzzyLoopStep rref dict threshold σ idx) t = heapGet σ t := by
  simp only [fuzzyLoopStep]
  cases hcur : (heapGet σ rref)[idx]? with
  | none => simp [hcur]
  | some row =>
    by_cases hcat : row.category ≠ ""
    · simp [hcur, hcat]
    · cases hfb : find_best_match threshold (normalize_text row.description)
          (dict.map Prod.fst) with
      | mk mopt score =>
        cases mopt with
        | none => simp [hcur, hcat, hfb]
        | some m =>
          by_cases hacc : (¬m = "" ∧ Q.intLe threshold score = true)
          · cases hcur1 : (heapGet (heapSet σ rref
                ((heapGet σ rref).set idx
                  { row with category := (dict.lookup m).getD "" })) rref)[idx]? with
            | none => simp [hcur, hcat, hfb, hacc, hcur1, heapGet_set_ne _ _ h]
            | some row1 => simp [hcur, hcat, hfb, hacc, hcur1, heapGet_set_ne _ _ h]
          · simp [hcur, hcat, hfb, hacc]

theorem aiLoopStep_length (rref : Nat) (gen : String → Option String)
    (examples : List (String × String)) (available : List String) (σ : Heap)
    (idx : Nat) :
    (aiLoopStep rref gen examples available σ idx).length = σ.length := by
  simp only [aiLoopStep]
  cases hcur : (heapGet σ rref)[idx]? with
  | none => simp [hcur]
  | some row =>
    by_cases hcat : row.category ≠ ""
    · simp [hcur, hcat]
    · cases hai : categorize_with_ai gen examples row.description available with
      | none => simp [hcur, hcat, hai]
      | some c =>
        cases hcur1 : (heapGet (heapSet σ rref
            ((heapGet σ rref).set idx { row with category := c })) rref)[idx]? with
        | none => simp [hcur, hcat, hai, hcur1, heapSet_length]
        | some row1 => simp [hcur, hcat, hai, hcur1, heapSet_length]

theorem aiLoopStep_get_ne (rref : Nat) (gen : String → Option String)
    (examples : List (String × String)) (available : List String) (t : Nat)
    (h : t ≠ rref) (σ : Heap) (idx : Nat) :
    heapGet (aiLoopStep rref gen examples available σ idx) t = heapGet σ t := by
  simp only [aiLoopStep]
  cases hcur : (heapGet σ rref)[idx]? with
  | none => simp [hcur]
  | some row =>
    by_cases hcat : row.category ≠ ""
    · simp [hcur, hcat]
    · cases hai : categorize_with_ai gen examples row.description available with
      | none => simp [hcur, hcat, hai]
      | some c =>
        cases hcur1 : (heapGet (heapSet σ rref
            ((heapGet σ rref).set idx { row with category := c })) rref)[idx]? with
        | none => simp [hcur, hcat, hai, hcur1, heapGet_set_ne _ _ h]
        | some row1 => simp [hcur, hcat, hai, hcur1, heapGet_set_ne _ _ h]

theorem copyBranch_spec (σ : Heap) (txs v : Df) :
    (heapSet (σ ++ [txs]) σ.length v).length = σ.length + 1
    ∧ ∀ u, u < σ.length → heapGet (heapSet (σ ++ [txs]) σ.length v) u = heapGet σ u := by
  constructor
  · rw [heapSet_length]
    simp
  · intro u hu
    rw [heapGet_set_ne _ _ (Nat.ne_of_lt hu), heapGet_append_lt _ _ _ hu]

/-- `ruleCategorizeH` returns the fresh copy's reference (the old heap
length), grows the heap by exactly one frame, and leaves every
pre-existing frame untouched. -/
theorem ruleCategorizeH_spec (cats : Option (List (String × String)))
    (σ : Heap) (tref : Nat) :
    (ruleCategorizeH cats σ tref).2 = σ.length
    ∧ (ruleCategorizeH cats σ tref).1.length = σ.length + 1
    ∧ ∀ u, u < σ.length →
        heapGet (ruleCategorizeH cats σ tref).1 u = heapGet σ u := by
  cases cats with
  | none =>
    simp only [ruleCategorizeH, heapAlloc]
    exact ⟨trivial, (copyBranch_spec σ _ _).1, (copyBranch_spec σ _ _).2⟩
  | some cs =>
    by_cases he : cs.isEmpty = true
    · simp only [ruleCategorizeH, heapAlloc, he, ite_true]
      exact ⟨trivial, (copyBranch_spec σ _ _).1, (copyBranch_spec σ _ _).2⟩
    · simp only [ruleCategorizeH, heapAlloc, he, Bool.false_eq_true, ite_false]
      refine ⟨trivial, ?_, ?_⟩
      · rw [foldl_length_pres _ (ruleLoopStep_length σ.length (preparePatterns cs))]
        simp
      · intro u hu
        rw [foldl_heapGet_pres _ u
          (ruleLoopStep_get_ne σ.length (preparePatterns cs) u (Nat.ne_of_lt hu))]
        exact heapGet_append_lt σ _ u hu

/-- `fuzzyCategorizeH` returns the fresh copy's reference, grows the
heap by one frame, and leaves every pre-existing frame untouched. -/
theorem fuzzyCategorizeH_spec (st : FuzzyState) (σ : Heap) (tref : Nat) :
    (fuzzyCategorizeH st σ tref).2 = σ.length
    ∧ (fuzzyCategorizeH st σ tref).1.length = σ.length + 1
    ∧ ∀ u, u < σ.length →
        heapGet (fuzzyCategorizeH st σ tref).1 u = heapGet σ u := by
  cases hc : st.categories with
  | none =>
    simp only [fuzzyCategorizeH, hc, heapAlloc]
    exact ⟨trivial, (copyBranch_spec σ _ _).1, (copyBranch_spec σ _ _).2⟩
  | some cs =>
    by_cases he : cs.isEmpty = true
    · simp only [fuzzyCategorizeH, hc, heapAlloc, he, ite_true]
      exact ⟨trivial, (copyBranch_spec σ _ _).1, (copyBranch_spec σ _ _).2⟩
    · simp only [fuzzyCategorizeH, hc, heapAlloc, he, Bool.false_eq_true, ite_false]
      refine ⟨trivial, ?_, ?_⟩
      · rw [foldl_length_pres _
          (fuzzyLoopStep_length σ.length (fuzzyPatterns cs) st.threshold)]
        simp
      · intro u hu
        rw [foldl_heapGet_pres _ u
          (fuzzyLoopStep_get_ne σ.length (fuzzyPatterns cs) st.threshold u
            (Nat.ne_of_lt hu))]
        exact heapGet_append_lt σ _ u hu

/-- `aiCategorizeH` returns the fresh copy's reference, grows the heap
by one frame, and leaves every pre-existing frame untouched. -/
theorem aiCategorizeH_spec (gen : String → Option String)
    (cats : Option (List (String × String))) (σ : Heap) (tref : Nat) :
    (aiCategorizeH gen cats σ tref).2 = σ.length
    ∧ (aiCategorizeH gen cats σ tref).1.length = σ.length + 1
    ∧ ∀ u, u < σ.length →
        heapGet (aiCategorizeH gen cats σ tref).1 u = heapGet σ u := by
  simp only [aiCategorizeH, heapAlloc]
  refine ⟨trivial, ?_, ?_⟩
  · rw [foldl_length_pres _
      (aiLoopStep_length σ.length gen (aiExamples cats) (getCategoriesList cats))]
    simp
  · intro u hu
    rw [foldl_heapGet_pres _ u
      (aiLoopStep_get_ne σ.length gen (aiExamples cats) (getCategoriesList cats) u
        (Nat.ne_of_lt hu))]
    exact heapGet_append_lt σ _ u hu

/-- The full chain run in the heap model never changes a pre-existing
frame: every write goes through references allocated during the call. -/
theorem chain_heap_pres (st : ChainState) (σ : Heap) (tref u : Nat)
    (hu : u < σ.length) :
    heapGet (chainCategorizeH st σ tref).1 u = heapGet σ u := by
  have hrs := ruleCategorizeH_spec st.categories (σ ++ [heapGet σ tref]) σ.length
  simp only [chainCategorizeH, heapAlloc]
  set ro := ruleCategorizeH st.categories (σ ++ [heapGet σ tref]) σ.length with hro
  have hr2 : ro.2 = σ.length + 1 := by
    rw [hrs.1]; simp
  have hune : u ≠ ro.2 := by omega
  have hrolen : ro.1.length = σ.length + 2 := by
    rw [hrs.2.1]; simp
  have hroget : heapGet ro.1 u = heapGet σ u := by
    rw [hrs.2.2 u (by simp; omega)]
    exact heapGet_append_lt σ _ u hu
  set s3 := heapSet ro.1 ro.2
    ((heapGet ro.1 ro.2).map
      (fun r => if ruleMask r then { r with categorized_by := "rule_based" } else r))
    with hs3
  have hs3len : s3.length = σ.length + 2 := by
    rw [hs3, heapSet_length, hrolen]
  have hs3get : heapGet s3 u = heapGet σ u := by
    rw [hs3, heapGet_set_ne _ _ hune, hroget]
  have hfs := fuzzyCategorizeH_spec ⟨st.categories, st.threshold⟩
    (s3 ++ [(heapGet s3 ro.2).filter (fun r => r.category = "")]) s3.length
  set fz := fuzzyCategorizeH ⟨st.categories, st.threshold⟩
    (s3 ++ [(heapGet s3 ro.2).filter (fun r => r.category = "")]) s3.length with hfz
  have hfzlen : fz.1.length = σ.length + 4 := by
    rw [hfs.2.1]
    simp [hs3len]
  have hfzget : heapGet fz.1 u = heapGet σ u := by
    rw [hfs.2.2 u (by simp [hs3len]; omega)]
    rw [heapGet_append_lt _ _ u (by omega), hs3get]
  set s4 := heapSet fz.1 ro.2
    (mergeStage ("fuzzy") (heapGet fz.1 ro.2) (heapGet fz.1 fz.2)) with hs4
  have hs4len : s4.length = σ.length + 4 := by
    rw [hs4, heapSet_length, hfzlen]
  have hs4get : heapGet s4 u = heapGet σ u := by
    rw [hs4, heapGet_set_ne _ _ hune, hfzget]
  by_cases hai : st.aiEnabled = true
  · simp only [hai, ite_true]
    have has := aiCategorizeH_spec st.gen st.categories
      (s4 ++ [(heapGet s4 ro.2).filter (fun r => r.category = "")]) s4.length
    set ai := aiCategorizeH st.gen st.categories
      (s4 ++ [(heapGet s4 ro.2).filter (fun r => r.category = "")]) s4.length with hAi
    have haiget : heapGet ai.1 u = heapGet σ u := by
      rw [has.2.2 u (by simp [hs4len]; omega)]
      rw [heapGet_append_lt _ _ u (by omega), hs4get]
    rw [heapGet_set_ne _ _ hune, haiget]
  · simp only [hai, Bool.false_eq_true, ite_false]
    exact hs4get

/-- C10: for every input transaction frame (any reference `tref` into the
heap), calling `categorize` on the ChainCategorizer, the
RuleBasedCategorizer, or the FuzzyCategorizer leaves the caller's input
frame unchanged — each operation copies the input and writes only through
the references it allocates for the copies. -/
theorem C10_no_input_mutation (st : ChainState)
    (cats : Option (List (String × String))) (fst : FuzzyState)
    (σ : Heap) (tref : Nat) (h : tref < σ.length) :
    heapGet (chainCategorizeH st σ tref).1 tref = heapGet σ tref
    ∧ heapGet (ruleCategorizeH cats σ tref).1 tref = heapGet σ tref
    ∧ heapGet (fuzzyCategorizeH fst σ tref).1 tref = heapGet σ tref :=
  ⟨chain_heap_pres st σ tref tref h,
   (ruleCategorizeH_spec cats σ tref).2.2 tref h,
   (fuzzyCategorizeH_spec fst σ tref).2.2 tref h⟩

theorem C10_witness :
    0 < ([[(⟨"mercado", "", "", none⟩ : Row)]] : Heap).length
    ∧ (heapGet (chainCategorizeH
          ⟨some [("mercado", "Casa")], 80, true, fun _ => none⟩
          [[(⟨"mercado", "", "", none⟩ : Row)]] 0).1 0
        = heapGet [[(⟨"mercado", "", "", none⟩ : Row)]] 0
      ∧ heapGet (ruleCategorizeH (some [("mercado", "Casa")])
          [[(⟨"mercado", "", "", none⟩ : Row)]] 0).1 0
        = heapGet [[(⟨"mercado", "", "", none⟩ : Row)]] 0
      ∧ heapGet (fuzzyCategorizeH ⟨some [("mercado", "Casa")], 80⟩
          [[(⟨"mercado", "", "", none⟩ : Row)]] 0).1 0
        = heapGet [[(⟨"mercado", "", "", none⟩ : Row)]] 0) :=
  ⟨by decide,
   C10_no_input_mutation ⟨some [("mercado", "Casa")], 80, true, fun _ => none⟩
     (some [("mercado", "Casa")]) ⟨some [("mercado", "Casa")], 80⟩
     [[(⟨"mercado", "", "", none⟩ : Row)]] 0 (by decide)⟩
